import Mathlib

/-!
# Verification of the `merkle-trees` proof algorithms

A shallow embedding, in Lean 4, of the off-chain Merkle multi-proof code of
the `programeth/merkle-trees` repository:

* `src/merkle-trees-js/src/utils/index.js` — `leftPad`, `to32ByteBuffer`,
  `bitCount32` (`hashNode` wraps Keccak-256 and is kept opaque: every
  definition below takes the two-argument node combiner as a parameter,
  exactly as the flag-decoder functions of the source do with their
  `hashFunction` argument);
* `src/merkle-trees-js/src/multi-proof.js` — `generateMultiProof`,
  `verifyMultiProof` for balanced (power-of-two) trees;
* the combined multi-and-append proof decoder file — `getRootBooleans`,
  `getRootBits`, `getNewRootBooleans`, `getNewRootBits`, `getMinimumIndex`.

JavaScript `Number` values that the code masks to 32 bits are modelled as
`Nat` with explicit `% 2^32` (with `Int` plus an explicit two's-complement
reinterpretation `toInt32` where the source relies on *signed* 32-bit
results).  JavaScript arrays are `List`s; an out-of-range read, which yields
`undefined` in JavaScript, is modelled by `Option` (`none` = `undefined`).
Applying the hash function to an `undefined` operand, or handing an
`undefined` value to `Buffer.from` / `Buffer.equals`, throws in JavaScript;
the embedding surfaces those as the error value `MPErr.typeError`, and the
`assert(..., 'Invalid Proof.')` failure as `MPErr.invalidProof`.
-/

namespace MerkleTrees

/-! ## Bit/byte utilities (`src/utils/index.js`) -/

/-- Two's-complement reinterpretation of a 32-bit pattern, i.e. the value
JavaScript's `ToInt32` gives to the low 32 bits of `n`. -/
def toInt32 (n : Nat) : Int :=
  if n % 2 ^ 32 < 2 ^ 31 then (n % 2 ^ 32 : Nat) else (n % 2 ^ 32 : Nat) - 2 ^ 32

/-- `bitCount32` from `src/utils/index.js`: the SWAR population count.
The source writes the shifts with JavaScript's signed `>>`; for inputs masked
to 32 bits the sign bit is eliminated by the masks `0x55555555`/`0x33333333`
before it could matter and all intermediate values stay below `2^53`, so the
unsigned rendering below computes the same bit patterns. -/
def bitCount32 (n : Nat) : Nat :=
  let n := n % 2 ^ 32
  let m := n - (n >>> 1 &&& 0x55555555)
  let m := (m &&& 0x33333333) + (m >>> 2 &&& 0x33333333)
  ((m + (m >>> 4) &&& 0xf0f0f0f) * 0x1010101 % 2 ^ 32) >>> 24

/-! ### `getMinimumIndex` (combined-proof file)

```js
const getMinimumIndex = (elementCount) => {
  for (let shifts = 0; shifts < 32; shifts++) {
    if (elementCount & 1) return (elementCount & 0xfffffffe) << shifts;
    elementCount >>>= 1;
  }
};
```

Falling off the loop (only possible when the 32-bit value is zero) returns
JavaScript `undefined`, modelled as `none`.  The returned expression is a
JavaScript *signed* shift result, hence `Option Int` with `toInt32`. -/

def getMinimumIndexGo : Nat → Nat → Nat → Option Int
  | 0, _, _ => none
  | fuel + 1, shifts, elementCount =>
    if elementCount % 2 = 1 then
      some (toInt32 ((Nat.land elementCount 0xfffffffe <<< shifts) % 2 ^ 32))
    else
      getMinimumIndexGo fuel (shifts + 1) ((elementCount % 2 ^ 32) >>> 1)

def getMinimumIndex (elementCount : Nat) : Option Int :=
  getMinimumIndexGo 32 0 (elementCount % 2 ^ 32)

/-! ### `leftPad` / `to32ByteBuffer` (`src/utils/index.js`)

```js
const leftPad = (num, size, char = '0') => {
  let s = num + '';
  while (s.length < size) s = char + s;
  return s;
};
const to32ByteBuffer = (number) => {
  return Buffer.from(leftPad(number.toString(16), 64), 'hex');
};
```

Strings are `List Char`.  `number.toString(16)` is modelled for exact
integers (the doubles the callers pass are exact); a negative number renders
as a minus sign followed by the hex digits of its absolute value.
`Buffer.from(s, 'hex')` decodes two hex characters per byte and, as in Node,
*truncates* at the first undecodable pair (it never throws); a trailing lone
character is dropped. -/

def leftPadGo : Nat → List Char → Nat → Char → List Char
  | 0, s, _, _ => s
  | fuel + 1, s, size, c =>
    if s.length < size then leftPadGo fuel (c :: s) size c else s

/-- Each `while` iteration lengthens `s` by one, so `size` iterations
always suffice; the fuel is never the reason the loop stops. -/
def leftPad (s : List Char) (size : Nat) (c : Char) : List Char :=
  leftPadGo size s size c

def hexDigitChar (d : Nat) : Char :=
  if d = 0 then '0' else if d = 1 then '1' else if d = 2 then '2'
  else if d = 3 then '3' else if d = 4 then '4' else if d = 5 then '5'
  else if d = 6 then '6' else if d = 7 then '7' else if d = 8 then '8'
  else if d = 9 then '9' else if d = 10 then 'a' else if d = 11 then 'b'
  else if d = 12 then 'c' else if d = 13 then 'd' else if d = 14 then 'e'
  else 'f'

def hexVal (c : Char) : Option Nat :=
  if c = '0' then some 0 else if c = '1' then some 1 else if c = '2' then some 2
  else if c = '3' then some 3 else if c = '4' then some 4 else if c = '5' then some 5
  else if c = '6' then some 6 else if c = '7' then some 7 else if c = '8' then some 8
  else if c = '9' then some 9 else if c = 'a' then some 10 else if c = 'b' then some 11
  else if c = 'c' then some 12 else if c = 'd' then some 13 else if c = 'e' then some 14
  else if c = 'f' then some 15 else none

/-- Hex digits of `n`, most significant first (`n.toString(16)` for `n > 0`
accumulates into `acc`); the fuel bounds the digit count and `n` itself is
always enough, since a positive `n` has at most `n` digits. -/
def natToHexAux : Nat → Nat → List Char → List Char
  | 0, _, acc => acc
  | fuel + 1, n, acc =>
    if n = 0 then acc
    else natToHexAux fuel (n / 16) (hexDigitChar (n % 16) :: acc)

/-- `n.toString(16)` for a non-negative exact integer. -/
def natToHex (n : Nat) : List Char :=
  if n = 0 then ['0'] else natToHexAux n n []

/-- `number.toString(16)` for an exact integer of either sign. -/
def numToHex (i : Int) : List Char :=
  if i < 0 then '-' :: natToHex i.natAbs else natToHex i.toNat

/-- Node's `'hex'` decoding: bytes from successive character pairs, stopping
(without error) at the first pair that is not two hex digits; a lone trailing
character is dropped. -/
def hexDecodePairs : List Char → List Nat
  | c1 :: c2 :: rest =>
    match hexVal c1, hexVal c2 with
    | some h, some l => (16 * h + l) :: hexDecodePairs rest
    | _, _ => []
  | _ => []

/-- `to32ByteBuffer` from `src/utils/index.js`, as the list of byte values of
the produced buffer. -/
def to32ByteBuffer (number : Int) : List Nat :=
  hexDecodePairs (leftPad (numToHex number) 64 '0')

/-- Big-endian value of a byte list (the number a buffer encodes). -/
def beBytesVal (bs : List Nat) : Nat :=
  bs.foldl (fun acc b => 256 * acc + b) 0

/-! ## Balanced-tree multi-proofs (`src/multi-proof.js`)

The digest type is an abstract `α` (buffers compared byte-wise, so
`DecidableEq α`); `hash` is the two-argument `hashNode` combiner, `encode`
the digest-valued rendering of a `Nat` (`to32ByteBuffer` in the source).

The level-order tree array is a function `Nat → α` together with its depth:
the source recovers `depth` from the array length through
`getDepthFromTree` (in `common.js`, which is not part of the sources at
hand), so the depth is taken as an explicit argument here. -/

/-- Modelled from the spec: `validateMixedRoot` lives in `common.js`, which
is absent from the sources; per the spec the mixed-root invariant is
`mixedRoot == hashNode(encode32(leafCount), root)`, compared byte-wise. -/
def validateMixedRoot {α : Type} [DecidableEq α] (hash : α → α → α) (encode : Nat → α)
    (mixedRoot root : α) (leafCount : Nat) : Bool :=
  mixedRoot = hash (encode leafCount) root

structure MultiProof (α : Type) where
  mixedRoot : α
  root : α
  leafCount : Nat
  indices : List Nat
  values : List α
  decommitments : List α
deriving DecidableEq, Repr

/-- The second loop of `generateMultiProof`: walk the internal nodes
`i, i-1, ..., 1` (the source iterates `i` from `(1 << depth) - 1` down to
`1`), record the sibling of every node that is known while its sibling is
not, and mark the parent known.  Returns the final `known` map and the
decommitments in push order. -/
def genAux {α : Type} (tree : Nat → α) (known : Nat → Bool) : Nat → ((Nat → Bool) × List α)
  | 0 => (known, [])
  | i + 1 =>
    let l := known (2 * (i + 1))
    let r := known (2 * (i + 1) + 1)
    let ds := if l && !r then [tree (2 * (i + 1) + 1)]
              else if r && !l then [tree (2 * (i + 1))] else []
    let rest := genAux tree (Function.update known (i + 1) (l || r)) i
    (rest.1, ds ++ rest.2)

/-- `generateMultiProof(tree, indices)` from `src/multi-proof.js`.  The
`assert` that `indices` is strictly descending is a hypothesis of the
theorems below rather than part of the model. -/
def generateMultiProof {α : Type} (tree : Nat → α) (depth : Nat) (indices : List Nat) :
    MultiProof α :=
  let leafCount := 2 ^ depth
  let known : Nat → Bool :=
    indices.foldl (fun k i => Function.update k (leafCount + i) true) (fun _ => false)
  let values := indices.map fun i => tree (leafCount + i)
  let decommitments := (genAux tree known (leafCount - 1)).2
  { mixedRoot := tree 0
    root := tree 1
    leafCount := leafCount
    indices := indices
    values := values
    decommitments := decommitments }

/-- Outcome of `verifyMultiProof`: a returned boolean, the
`assert(queue.length >= 1, 'Something went wrong.')` failure, or fuel
exhaustion (the JavaScript `while (true)` loop diverges, or crashes on an
exhausted decommitment list, only outside the fuel bound chosen below). -/
inductive VOut
  | ret (b : Bool)
  | assertFail
  | outOfFuel
deriving DecidableEq, Repr

/-- One `while (true)` iteration of `verifyMultiProof` per fuel unit: shift
the front `{index, value}`, return at tree index 1, otherwise merge with a
decommitment (even index: right; lone odd index: left) or with the queued
left neighbour, pushing the parent at the back.  `ds.headD default` stands
for `decommits.shift()`, whose result JavaScript feeds to `hashNode`
unchecked. -/
def vmLoop {α : Type} [DecidableEq α] [Inhabited α] (hash : α → α → α) (root : α) :
    Nat → List (Nat × α) → List α → VOut
  | 0, _, _ => .outOfFuel
  | _ + 1, [], _ => .assertFail
  | fuel + 1, (index, value) :: queue, ds =>
    if index = 1 then .ret (value = root)
    else if index % 2 = 0 then
      vmLoop hash root fuel (queue ++ [(index / 2, hash value (ds.headD default))]) ds.tail
    else
      match queue with
      | (j, w) :: queue' =>
        if j = index - 1 then
          vmLoop hash root fuel (queue' ++ [(index / 2, hash w value)]) ds
        else
          vmLoop hash root fuel (queue ++ [(index / 2, hash (ds.headD default) value)]) ds.tail
      | [] =>
        vmLoop hash root fuel [(index / 2, hash (ds.headD default) value)] ds.tail

/-- `verifyMultiProof(mixedRoot, root, leafCount, indices, values,
decommitments)` from `src/multi-proof.js`.  The fuel, one unit per loop
iteration, is the sum of the seeded tree indices plus one: each iteration
strictly decreases that sum while every queued index is at least 1, so the
bound is only reached on malformed inputs on which the JavaScript loop
never reaches index 1 either. -/
def verifyMultiProof {α : Type} [DecidableEq α] [Inhabited α]
    (hash : α → α → α) (encode : Nat → α) (mixedRoot root : α) (leafCount : Nat)
    (indices : List Nat) (values : List α) (decommitments : List α) : VOut :=
  if !validateMixedRoot hash encode mixedRoot root leafCount then .ret false
  else
    let queue := (indices.zip values).map fun p => (leafCount + p.1, p.2)
    vmLoop hash root ((queue.map Prod.fst).sum + 1) queue decommitments

/-! ### Round-trip infrastructure

The generator walks parents bottom-up and right-to-left; the verifier's
FIFO queue processes one level at a time in descending index order.  Both
are related below to a common per-level description: for a strictly
descending list `S` of known node indices at one level, `levelParents S` is
the descending list of their parents and `levelDecs tree S` the
decommitments consumed at that level, in order (a lone even node needs its
right sibling, a lone odd node its left sibling, an adjacent pair needs
none). -/

def levelParents : List Nat → List Nat
  | [] => []
  | i :: rest =>
    if i % 2 = 1 then
      match rest with
      | j :: rest' =>
        if j = i - 1 then i / 2 :: levelParents rest' else i / 2 :: levelParents (j :: rest')
      | [] => [i / 2]
    else i / 2 :: levelParents rest
termination_by S => S.length
decreasing_by all_goals simp_arith

def levelDecs {α : Type} (tree : Nat → α) : List Nat → List α
  | [] => []
  | i :: rest =>
    if i % 2 = 1 then
      match rest with
      | j :: rest' =>
        if j = i - 1 then levelDecs tree rest'
        else tree (i - 1) :: levelDecs tree (j :: rest')
      | [] => [tree (i - 1)]
    else tree (i + 1) :: levelDecs tree rest
termination_by S => S.length
decreasing_by all_goals simp_arith

/-- Decommitments of `ℓ` successive level passes starting from known set `S`. -/
def levelDecsAll {α : Type} (tree : Nat → α) : Nat → List Nat → List α
  | 0, _ => []
  | l + 1, S => levelDecs tree S ++ levelDecsAll tree l (levelParents S)

/-- Verifier iterations consumed by `ℓ` successive level passes. -/
def stepsAll : Nat → List Nat → Nat
  | 0, _ => 0
  | l + 1, S => (levelParents S).length + stepsAll l (levelParents S)

/-- The node set the generator's `known` array describes: a node is known
iff some known leaf lies in its subtree. -/
def subtreeKnown (L : Nat) (leafSet : Nat → Bool) (j : Nat) : Bool :=
  if j = 0 then false
  else if L ≤ j then leafSet j
  else subtreeKnown L leafSet (2 * j) || subtreeKnown L leafSet (2 * j + 1)
termination_by L - j
decreasing_by all_goals omega

/-- Closed form of the generator's decommitment loop from counter `i` down
to 1, with the known map replaced by its `subtreeKnown` description. -/
def decsFrom {α : Type} (tree : Nat → α) (sk : Nat → Bool) : Nat → List α
  | 0 => []
  | i + 1 =>
    (if sk (2 * (i + 1)) && !sk (2 * (i + 1) + 1) then [tree (2 * (i + 1) + 1)]
     else if sk (2 * (i + 1) + 1) && !sk (2 * (i + 1)) then [tree (2 * (i + 1))] else [])
    ++ decsFrom tree sk i

/-- The verifier queue entries for a known-index list: each index paired
with the tree value there. -/
def entriesOf {α : Type} (tree : Nat → α) (S : List Nat) : List (Nat × α) :=
  S.map fun j => (j, tree j)

/-! ### Structural facts about `levelParents` -/

lemma levelParents_nil : levelParents [] = [] := by
  rw [levelParents.eq_def]

lemma levelParents_pair {i : Nat} (hodd : i % 2 = 1) (rest' : List Nat) :
    levelParents (i :: (i - 1) :: rest') = i / 2 :: levelParents rest' := by
  rw [levelParents.eq_def]; simp [hodd]

lemma levelParents_nonpair {i j : Nat} (hodd : i % 2 = 1) (hj : j ≠ i - 1)
    (rest' : List Nat) :
    levelParents (i :: j :: rest') = i / 2 :: levelParents (j :: rest') := by
  rw [levelParents.eq_def]; simp [hodd, hj]

lemma levelParents_single {i : Nat} (hodd : i % 2 = 1) : levelParents [i] = [i / 2] := by
  rw [levelParents.eq_def]; simp [hodd]

lemma levelParents_even {i : Nat} (heven : ¬i % 2 = 1) (rest : List Nat) :
    levelParents (i :: rest) = i / 2 :: levelParents rest := by
  rw [levelParents.eq_def]
  rcases rest with _ | ⟨j, rest'⟩ <;> simp [heven]

lemma levelParents_mem {S : List Nat} {p : Nat} (hp : p ∈ levelParents S) :
    ∃ s ∈ S, p = s / 2 := by
  induction S using levelParents.induct with
  | case1 => simp [levelParents_nil] at hp
  | case2 i hodd rest' ih =>
    rw [levelParents_pair hodd] at hp
    rcases List.mem_cons.mp hp with rfl | hp
    · exact ⟨i, by simp, rfl⟩
    · obtain ⟨s, hs, rfl⟩ := ih hp
      exact ⟨s, by simp [hs], rfl⟩
  | case3 i hodd j rest' hj ih =>
    rw [levelParents_nonpair hodd hj] at hp
    rcases List.mem_cons.mp hp with rfl | hp
    · exact ⟨i, by simp, rfl⟩
    · obtain ⟨s, hs, rfl⟩ := ih hp
      exact ⟨s, by simp only [List.mem_cons] at hs ⊢; tauto, rfl⟩
  | case4 i hodd =>
    rw [levelParents_single hodd] at hp
    exact ⟨i, by simp, by simpa using hp⟩
  | case5 i rest hodd ih =>
    rw [levelParents_even hodd] at hp
    rcases List.mem_cons.mp hp with rfl | hp
    · exact ⟨i, by simp, rfl⟩
    · obtain ⟨s, hs, rfl⟩ := ih hp
      exact ⟨s, by simp [hs], rfl⟩

lemma mem_levelParents_of_mem {S : List Nat} {s : Nat} (hs : s ∈ S) :
    s / 2 ∈ levelParents S := by
  induction S using levelParents.induct with
  | case1 => simp at hs
  | case2 i hodd rest' ih =>
    rw [levelParents_pair hodd]
    rcases List.mem_cons.mp hs with rfl | hs'
    · simp
    · rcases List.mem_cons.mp hs' with rfl | hs''
      · have : (i - 1) / 2 = i / 2 := by omega
        simp [this]
      · simp [ih hs'']
  | case3 i hodd j rest' hj ih =>
    rw [levelParents_nonpair hodd hj]
    rcases List.mem_cons.mp hs with rfl | hs'
    · simp
    · exact List.mem_cons.mpr (Or.inr (ih hs'))
  | case4 i hodd =>
    rw [levelParents_single hodd]
    simp only [List.mem_singleton] at hs
    simp [hs]
  | case5 i rest hodd ih =>
    rw [levelParents_even hodd]
    rcases List.mem_cons.mp hs with rfl | hs'
    · simp
    · simp [ih hs']

lemma mem_levelParents_iff {S : List Nat} {p : Nat} :
    p ∈ levelParents S ↔ 2 * p ∈ S ∨ 2 * p + 1 ∈ S := by
  constructor
  · intro hp
    obtain ⟨s, hs, rfl⟩ := levelParents_mem hp
    rcases Nat.even_or_odd s with ⟨t, ht⟩ | ⟨t, ht⟩
    · left; convert hs using 1; omega
    · right; convert hs using 1; omega
  · rintro (h | h)
    · have := mem_levelParents_of_mem h
      have heq : 2 * p / 2 = p := by omega
      rwa [heq] at this
    · have := mem_levelParents_of_mem h
      have heq : (2 * p + 1) / 2 = p := by omega
      rwa [heq] at this

lemma levelParents_length (S : List Nat) : (levelParents S).length ≤ S.length := by
  induction S using levelParents.induct with
  | case1 => simp [levelParents_nil]
  | case2 i hodd rest' ih =>
    rw [levelParents_pair hodd]; simp only [List.length_cons]; omega
  | case3 i hodd j rest' hj ih =>
    rw [levelParents_nonpair hodd hj]
    simp only [List.length_cons] at ih ⊢
    omega
  | case4 i hodd => rw [levelParents_single hodd]; simp
  | case5 i rest hodd ih =>
    rw [levelParents_even hodd]; simp only [List.length_cons]; omega

lemma levelParents_ne_nil {S : List Nat} (h : S ≠ []) : levelParents S ≠ [] := by
  induction S using levelParents.induct with
  | case1 => exact absurd rfl h
  | case2 i hodd rest' ih => rw [levelParents_pair hodd]; simp
  | case3 i hodd j rest' hj ih => rw [levelParents_nonpair hodd hj]; simp
  | case4 i hodd => rw [levelParents_single hodd]; simp
  | case5 i rest hodd ih => rw [levelParents_even hodd]; simp

lemma chain'_gt_lt {i : Nat} {rest : List Nat} (h : List.Chain' (· > ·) (i :: rest)) :
    ∀ s ∈ rest, s < i := by
  intro s hs
  have hpw : List.Pairwise (· > ·) (i :: rest) := List.chain'_iff_pairwise.mp h
  exact List.rel_of_pairwise_cons hpw hs

lemma levelParents_chain {S : List Nat} (h : List.Chain' (· > ·) S) :
    List.Chain' (· > ·) (levelParents S) := by
  induction S using levelParents.induct with
  | case1 => simp [levelParents_nil]
  | case2 i hodd rest' ih =>
    rw [levelParents_pair hodd]
    have hrest : List.Chain' (· > ·) rest' := h.tail.tail
    rw [List.chain'_cons']
    refine ⟨?_, ih hrest⟩
    intro y hy
    obtain ⟨s, hs, rfl⟩ := levelParents_mem (List.mem_of_mem_head? hy)
    have h1 : s < i - 1 := chain'_gt_lt h.tail s hs
    omega
  | case3 i hodd j rest' hj ih =>
    rw [levelParents_nonpair hodd hj]
    rw [List.chain'_cons']
    refine ⟨?_, ih h.tail⟩
    intro y hy
    obtain ⟨s, hs, rfl⟩ := levelParents_mem (List.mem_of_mem_head? hy)
    have h1 : s < i := chain'_gt_lt h s hs
    have h2 : s ≠ i - 1 := by
      rcases List.mem_cons.mp hs with rfl | hmem'
      · exact hj
      · have hsj := chain'_gt_lt h.tail s hmem'
        have hji : j < i := chain'_gt_lt h j (by simp)
        omega
    omega
  | case4 i hodd => rw [levelParents_single hodd]; simp
  | case5 i rest hodd ih =>
    rw [levelParents_even hodd]
    rw [List.chain'_cons']
    refine ⟨?_, ih h.tail⟩
    intro y hy
    obtain ⟨s, hs, rfl⟩ := levelParents_mem (List.mem_of_mem_head? hy)
    have h1 : s < i := chain'_gt_lt h s hs
    omega

/-! ### Unfolding lemmas for `levelDecs`, `entriesOf` and `vmLoop` -/

section LevelPass

variable {α : Type}

lemma levelDecs_nil (tree : Nat → α) : levelDecs tree [] = [] := by
  rw [levelDecs.eq_def]

lemma levelDecs_pair (tree : Nat → α) {i : Nat} (hodd : i % 2 = 1) (rest' : List Nat) :
    levelDecs tree (i :: (i - 1) :: rest') = levelDecs tree rest' := by
  rw [levelDecs.eq_def]; simp [hodd]

lemma levelDecs_nonpair (tree : Nat → α) {i j : Nat} (hodd : i % 2 = 1) (hj : j ≠ i - 1)
    (rest' : List Nat) :
    levelDecs tree (i :: j :: rest') = tree (i - 1) :: levelDecs tree (j :: rest') := by
  rw [levelDecs.eq_def]; simp [hodd, hj]

lemma levelDecs_single (tree : Nat → α) {i : Nat} (hodd : i % 2 = 1) :
    levelDecs tree [i] = [tree (i - 1)] := by
  rw [levelDecs.eq_def]; simp [hodd]

lemma levelDecs_even (tree : Nat → α) {i : Nat} (heven : ¬i % 2 = 1) (rest : List Nat) :
    levelDecs tree (i :: rest) = tree (i + 1) :: levelDecs tree rest := by
  rw [levelDecs.eq_def]
  rcases rest with _ | ⟨j, rest'⟩ <;> simp [heven]

lemma entriesOf_nil (tree : Nat → α) : entriesOf tree [] = [] := rfl

lemma entriesOf_cons (tree : Nat → α) (j : Nat) (S : List Nat) :
    entriesOf tree (j :: S) = (j, tree j) :: entriesOf tree S := rfl

lemma entriesOf_append (tree : Nat → α) (S T : List Nat) :
    entriesOf tree (S ++ T) = entriesOf tree S ++ entriesOf tree T := by
  simp [entriesOf]

variable [DecidableEq α] [Inhabited α]

/-- One verifier iteration, root case. -/
lemma vmLoop_ret (hash : α → α → α) (root : α) (fuel : Nat) (v : α)
    (queue : List (Nat × α)) (ds : List α) :
    vmLoop hash root (fuel + 1) ((1, v) :: queue) ds = .ret (v = root) := by
  simp [vmLoop]

/-- One verifier iteration, even index: merge with a decommitment on the right. -/
lemma vmLoop_even (hash : α → α → α) (root : α) (fuel : Nat) {i : Nat} (v : α)
    (queue : List (Nat × α)) (ds : List α) (hi1 : i ≠ 1) (heven : i % 2 = 0) :
    vmLoop hash root (fuel + 1) ((i, v) :: queue) ds
      = vmLoop hash root fuel (queue ++ [(i / 2, hash v (ds.headD default))]) ds.tail := by
  simp [vmLoop, hi1, heven]

/-- One verifier iteration, odd index whose left neighbour is queued. -/
lemma vmLoop_odd_pair (hash : α → α → α) (root : α) (fuel : Nat) {i j : Nat} (v w : α)
    (queue : List (Nat × α)) (ds : List α) (hi1 : i ≠ 1) (hodd : i % 2 = 1)
    (hj : j = i - 1) :
    vmLoop hash root (fuel + 1) ((i, v) :: (j, w) :: queue) ds
      = vmLoop hash root fuel (queue ++ [(i / 2, hash w v)]) ds := by
  simp [vmLoop, hi1, hodd, hj]

/-- One verifier iteration, odd index whose left neighbour is not queued next. -/
lemma vmLoop_odd_dec (hash : α → α → α) (root : α) (fuel : Nat) {i j : Nat} (v w : α)
    (queue : List (Nat × α)) (ds : List α) (hi1 : i ≠ 1) (hodd : i % 2 = 1)
    (hj : j ≠ i - 1) :
    vmLoop hash root (fuel + 1) ((i, v) :: (j, w) :: queue) ds
      = vmLoop hash root fuel
          (((j, w) :: queue) ++ [(i / 2, hash (ds.headD default) v)]) ds.tail := by
  simp [vmLoop, hi1, hodd, hj]

/-- One verifier iteration, odd index with an empty remaining queue. -/
lemma vmLoop_odd_nil (hash : α → α → α) (root : α) (fuel : Nat) {i : Nat} (v : α)
    (ds : List α) (hi1 : i ≠ 1) (hodd : i % 2 = 1) :
    vmLoop hash root (fuel + 1) [(i, v)] ds
      = vmLoop hash root fuel [(i / 2, hash (ds.headD default) v)] ds.tail := by
  simp [vmLoop, hi1, hodd]

/-- One full level of the verifier: processing a strictly descending list
`S` of known nodes of level `l ≥ 1` (queued in front of already-produced
lower-level entries `P`) takes `(levelParents S).length` iterations,
consumes exactly `levelDecs tree S`, and appends the parent entries (with
their correct tree values, by well-formedness) behind `P`. -/
lemma vmLoop_level (hash : α → α → α) (root : α) (tree : Nat → α) {l : Nat} (hl : 1 ≤ l)
    (hwf : ∀ p, 1 ≤ p → p < 2 ^ l → tree p = hash (tree (2 * p)) (tree (2 * p + 1))) :
    ∀ S : List Nat, List.Chain' (· > ·) S → (∀ s ∈ S, 2 ^ l ≤ s ∧ s < 2 ^ (l + 1)) →
      ∀ P : List Nat, (∀ p ∈ P, p < 2 ^ l) → ∀ f ds,
      vmLoop hash root ((levelParents S).length + f)
          (entriesOf tree S ++ entriesOf tree P) (levelDecs tree S ++ ds)
        = vmLoop hash root f (entriesOf tree (P ++ levelParents S)) ds := by
  have h2l : 2 ≤ 2 ^ l := by
    calc 2 = 2 ^ 1 := rfl
    _ ≤ 2 ^ l := Nat.pow_le_pow_right (by norm_num) hl
  have hpow : 2 ^ (l + 1) = 2 * 2 ^ l := by rw [Nat.pow_succ]; ring
  have h2le : (2 : Nat) ^ l % 2 = 0 := by
    obtain ⟨l', rfl⟩ := Nat.exists_eq_add_of_le hl
    simp [Nat.pow_add, Nat.pow_succ, Nat.mul_mod_left, Nat.mul_comm]
  intro S
  induction S using levelParents.induct with
  | case1 =>
    intro _ _ P hP f ds
    simp [levelParents_nil, levelDecs_nil, entriesOf_nil]
  | case2 i hodd rest' ih =>
    intro hchain hbound P hP f ds
    obtain ⟨hi_lo, hi_hi⟩ := hbound i (by simp)
    have hi1 : i ≠ 1 := by omega
    have harith : (levelParents (i :: (i - 1) :: rest')).length + f
        = ((levelParents rest').length + f) + 1 := by
      rw [levelParents_pair hodd]; simp; omega
    rw [harith, levelDecs_pair tree hodd, entriesOf_cons, entriesOf_cons,
      List.cons_append, List.cons_append,
      vmLoop_odd_pair hash root _ (tree i) (tree (i - 1)) _ _ hi1 hodd rfl]
    have hval : hash (tree (i - 1)) (tree i) = tree (i / 2) := by
      have hp1 : 1 ≤ i / 2 := by omega
      have hp2 : i / 2 < 2 ^ l := by omega
      have hw := hwf (i / 2) hp1 hp2
      have e1 : 2 * (i / 2) = i - 1 := by omega
      have e2 : 2 * (i / 2) + 1 = i := by omega
      rw [e2, e1] at hw
      exact hw.symm
    rw [hval]
    have hq : (entriesOf tree rest' ++ entriesOf tree P) ++ [(i / 2, tree (i / 2))]
        = entriesOf tree rest' ++ entriesOf tree (P ++ [i / 2]) := by
      rw [entriesOf_append, List.append_assoc]; rfl
    rw [hq, ih hchain.tail.tail
      (fun s hs => hbound s (List.mem_cons.mpr (Or.inr (List.mem_cons.mpr (Or.inr hs)))))
      (P ++ [i / 2])
      (by intro p hp
          rcases List.mem_append.mp hp with h | h
          · exact hP p h
          · simp only [List.mem_singleton] at h; omega)
      f ds]
    rw [levelParents_pair hodd, List.append_assoc]
    rfl
  | case3 i hodd j rest' hj ih =>
    intro hchain hbound P hP f ds
    obtain ⟨hi_lo, hi_hi⟩ := hbound i (by simp)
    have hi1 : i ≠ 1 := by omega
    have harith : (levelParents (i :: j :: rest')).length + f
        = ((levelParents (j :: rest')).length + f) + 1 := by
      rw [levelParents_nonpair hodd hj]; simp; omega
    rw [harith, levelDecs_nonpair tree hodd hj, entriesOf_cons, entriesOf_cons,
      List.cons_append, List.cons_append,
      vmLoop_odd_dec hash root _ (tree i) (tree j) _ _ hi1 hodd hj]
    simp only [List.cons_append, List.headD_cons, List.tail_cons]
    have hval : hash (tree (i - 1)) (tree i) = tree (i / 2) := by
      have hp1 : 1 ≤ i / 2 := by omega
      have hp2 : i / 2 < 2 ^ l := by omega
      have hw := hwf (i / 2) hp1 hp2
      have e1 : 2 * (i / 2) = i - 1 := by omega
      have e2 : 2 * (i / 2) + 1 = i := by omega
      rw [e2, e1] at hw
      exact hw.symm
    rw [hval]
    have hq : (j, tree j) :: (entriesOf tree rest' ++ entriesOf tree P ++ [(i / 2, tree (i / 2))])
        = entriesOf tree (j :: rest') ++ entriesOf tree (P ++ [i / 2]) := by
      simp [entriesOf, List.append_assoc]
    rw [hq, ih hchain.tail
      (fun s hs => hbound s (List.mem_cons.mpr (Or.inr hs)))
      (P ++ [i / 2])
      (by intro p hp
          rcases List.mem_append.mp hp with h | h
          · exact hP p h
          · simp only [List.mem_singleton] at h; omega)
      f ds]
    rw [levelParents_nonpair hodd hj, List.append_assoc]
    rfl
  | case4 i hodd =>
    intro _ hbound P hP f ds
    obtain ⟨hi_lo, hi_hi⟩ := hbound i (by simp)
    have hi1 : i ≠ 1 := by omega
    have harith : (levelParents [i]).length + f = f + 1 := by
      rw [levelParents_single hodd]; simp; omega
    have hval : hash (tree (i - 1)) (tree i) = tree (i / 2) := by
      have hp1 : 1 ≤ i / 2 := by omega
      have hp2 : i / 2 < 2 ^ l := by omega
      have hw := hwf (i / 2) hp1 hp2
      have e1 : 2 * (i / 2) = i - 1 := by omega
      have e2 : 2 * (i / 2) + 1 = i := by omega
      rw [e2, e1] at hw
      exact hw.symm
    rcases P with _ | ⟨q, P'⟩
    · rw [harith, levelDecs_single tree hodd, entriesOf_cons, entriesOf_nil,
        List.nil_append, List.append_nil,
        vmLoop_odd_nil hash root _ (tree i) _ hi1 hodd]
      simp only [List.cons_append, List.headD_cons, List.tail_cons]
      rw [hval, levelParents_single hodd]
      rfl
    · have hq_ne : q ≠ i - 1 := by
        have := hP q (by simp)
        omega
      rw [harith, levelDecs_single tree hodd, entriesOf_cons, entriesOf_cons,
        entriesOf_nil, List.cons_append, List.nil_append,
        vmLoop_odd_dec hash root _ (tree i) (tree q) _ _ hi1 hodd hq_ne]
      simp only [List.cons_append, List.headD_cons, List.tail_cons]
      rw [hval, levelParents_single hodd]
      have hq : (q, tree q) :: (entriesOf tree P' ++ [(i / 2, tree (i / 2))])
          = entriesOf tree ((q :: P') ++ [i / 2]) := by
        simp [entriesOf]
      rw [hq]
      simp
  | case5 i rest hnodd ih =>
    intro hchain hbound P hP f ds
    obtain ⟨hi_lo, hi_hi⟩ := hbound i (by simp)
    have hi1 : i ≠ 1 := by omega
    have heven : i % 2 = 0 := by omega
    have harith : (levelParents (i :: rest)).length + f
        = ((levelParents rest).length + f) + 1 := by
      rw [levelParents_even hnodd]; simp; omega
    rw [harith, levelDecs_even tree hnodd, entriesOf_cons, List.cons_append,
      vmLoop_even hash root _ (tree i) _ _ hi1 heven]
    simp only [List.cons_append, List.headD_cons, List.tail_cons]
    have hval : hash (tree i) (tree (i + 1)) = tree (i / 2) := by
      have hp1 : 1 ≤ i / 2 := by omega
      have hp2 : i / 2 < 2 ^ l := by omega
      have hw := hwf (i / 2) hp1 hp2
      have e1 : 2 * (i / 2) = i := by omega
      have e2 : 2 * (i / 2) + 1 = i + 1 := by omega
      rw [e2, e1] at hw
      exact hw.symm
    rw [hval]
    have hq : (entriesOf tree rest ++ entriesOf tree P) ++ [(i / 2, tree (i / 2))]
        = entriesOf tree rest ++ entriesOf tree (P ++ [i / 2]) := by
      rw [entriesOf_append, List.append_assoc]; rfl
    rw [hq, ih hchain.tail
      (fun s hs => hbound s (List.mem_cons.mpr (Or.inr hs)))
      (P ++ [i / 2])
      (by intro p hp
          rcases List.mem_append.mp hp with h | h
          · exact hP p h
          · simp only [List.mem_singleton] at h; omega)
      f ds]
    rw [levelParents_even hnodd, List.append_assoc]
    rfl

/-- A nonempty strictly descending list confined to level 0 is `[1]`. -/
lemma level_zero_singleton {S : List Nat} (hne : S ≠ []) (hchain : List.Chain' (· > ·) S)
    (hbound : ∀ s ∈ S, 2 ^ 0 ≤ s ∧ s < 2 ^ 1) : S = [1] := by
  rcases S with _ | ⟨s, rest⟩
  · exact absurd rfl hne
  · have hs : s = 1 := by have := hbound s (by simp); omega
    rcases rest with _ | ⟨r, rest'⟩
    · rw [hs]
    · have hr : r = 1 := by have := hbound r (by simp); omega
      have := chain'_gt_lt hchain r (by simp)
      omega

/-- Chaining `vmLoop_level` over all levels: the whole queue collapses to
the single root entry, consuming exactly the per-level decommitments. -/
lemma vmLoop_chain (hash : α → α → α) (root : α) (tree : Nat → α) :
    ∀ (l : Nat) (S : List Nat), S ≠ [] → List.Chain' (· > ·) S →
      (∀ s ∈ S, 2 ^ l ≤ s ∧ s < 2 ^ (l + 1)) →
      (∀ p, 1 ≤ p → p < 2 ^ l → tree p = hash (tree (2 * p)) (tree (2 * p + 1))) →
      ∀ f ds,
      vmLoop hash root (stepsAll l S + f) (entriesOf tree S) (levelDecsAll tree l S ++ ds)
        = vmLoop hash root f [(1, tree 1)] ds := by
  intro l
  induction l with
  | zero =>
    intro S hne hchain hbound _ f ds
    rw [level_zero_singleton hne hchain hbound]
    simp [stepsAll, levelDecsAll, entriesOf]
  | succ l ih =>
    intro S hne hchain hbound hwf f ds
    have hpow1 : (2 : Nat) ^ (l + 1) = 2 * 2 ^ l := by rw [Nat.pow_succ]; ring
    have hpow2 : (2 : Nat) ^ (l + 2) = 2 * 2 ^ (l + 1) := by rw [Nat.pow_succ]; ring
    have hstep : stepsAll (l + 1) S + f
        = (levelParents S).length + (stepsAll l (levelParents S) + f) := by
      rw [stepsAll]; omega
    have hdecs : levelDecsAll tree (l + 1) S ++ ds
        = levelDecs tree S ++ (levelDecsAll tree l (levelParents S) ++ ds) := by
      rw [levelDecsAll, List.append_assoc]
    rw [hstep, hdecs]
    have hmain := vmLoop_level hash root tree (Nat.le_add_left 1 l) hwf S hchain hbound
      [] (by intro p hp; simp at hp) (stepsAll l (levelParents S) + f)
      (levelDecsAll tree l (levelParents S) ++ ds)
    rw [List.nil_append] at hmain
    have hq : entriesOf tree S ++ entriesOf tree [] = entriesOf tree S := by
      simp [entriesOf]
    rw [← hq]
    rw [hmain]
    exact ih (levelParents S) (levelParents_ne_nil hne) (levelParents_chain hchain)
      (by
        intro p hp
        obtain ⟨s, hs, rfl⟩ := levelParents_mem hp
        have := hbound s hs
        omega)
      (fun p h1 h2 => hwf p h1 (by omega)) f ds

end LevelPass

/-! ### The generator's decommitments, level by level -/

section Generator

variable {α : Type}

/-- The `known` map seeded by the generator's first loop is exactly
membership in the shifted index list. -/
lemma foldl_update_eq (L : Nat) :
    ∀ (indices : List Nat) (k : Nat → Bool) (j : Nat),
      (indices.foldl (fun k i => Function.update k (L + i) true) k) j
        = (k j || decide (j ∈ indices.map (L + ·))) := by
  intro indices
  induction indices with
  | nil => simp
  | cons a rest ih =>
    intro k j
    simp only [List.foldl_cons, List.map_cons, List.mem_cons]
    rw [ih]
    by_cases h : j = L + a
    · subst h
      simp [Function.update_same]
    · rw [Function.update_noteq h]
      simp [h]

/-- The generator's bottom-up loop, with every `known` read replaced by the
`subtreeKnown` description, produces exactly `decsFrom`. -/
lemma genAux_snd (tree : Nat → α) (L : Nat) (leafSet : Nat → Bool) :
    ∀ i : Nat, i < L → ∀ k : Nat → Bool,
      (∀ j, i < j → k j = subtreeKnown L leafSet j) →
      (genAux tree k i).2 = decsFrom tree (subtreeKnown L leafSet) i := by
  intro i
  induction i with
  | zero => intro _ k _; rfl
  | succ i ih =>
    intro hiL k hk
    have h1 : k (2 * (i + 1)) = subtreeKnown L leafSet (2 * (i + 1)) := hk _ (by omega)
    have h2 : k (2 * (i + 1) + 1) = subtreeKnown L leafSet (2 * (i + 1) + 1) :=
      hk _ (by omega)
    simp only [genAux, decsFrom, h1, h2]
    congr 1
    apply ih (by omega)
    intro j hj
    rcases Nat.lt_or_ge i j with _ | _
    · have hji : j = i + 1 ∨ i + 1 < j := by omega
      rcases hji with rfl | hgt
      · rw [Function.update_same]
        have hne0 : ¬(i + 1 = 0) := by omega
        have hnL : ¬(L ≤ i + 1) := by omega
        conv_rhs => rw [subtreeKnown]
        simp [hne0, hnL]
      · rw [Function.update_noteq (by omega)]
        exact hk j hgt
    · omega

/-- Processing the block of parent counters `(2^l - 1, i]` (descending) of
`decsFrom` emits exactly the level pass of the descending known-children
list `S` of level `l + 1`, provided `sk` agrees with membership in `S` on
the part of the level at stake. -/
lemma decsFrom_block (tree : Nat → α) (sk : Nat → Bool) (l : Nat) :
    ∀ (i : Nat) (S : List Nat),
      2 ^ l - 1 ≤ i → i ≤ 2 ^ (l + 1) - 1 →
      List.Chain' (· > ·) S →
      (∀ s ∈ S, 2 ^ (l + 1) ≤ s ∧ s < 2 ^ (l + 2)) →
      (∀ s ∈ S, s / 2 ≤ i) →
      (∀ s, 2 ^ (l + 1) ≤ s → s < 2 ^ (l + 2) → s ≤ 2 * i + 1 → (sk s = true ↔ s ∈ S)) →
      decsFrom tree sk i = levelDecs tree S ++ decsFrom tree sk (2 ^ l - 1) := by
  have hA : (2 : Nat) ^ (l + 1) = 2 * 2 ^ l := by rw [Nat.pow_succ]; ring
  have hB : (2 : Nat) ^ (l + 2) = 2 * 2 ^ (l + 1) := by rw [Nat.pow_succ]; ring
  have hL1 : (1 : Nat) ≤ 2 ^ l := Nat.one_le_two_pow
  intro i
  induction i using Nat.strong_induction_on with
  | _ i ihi =>
    intro S hlo hhi hchain hbound hpar hchar
    have hskF : ∀ s, 2 ^ (l + 1) ≤ s → s < 2 ^ (l + 2) → s ≤ 2 * i + 1 → s ∉ S →
        sk s = false := by
      intro s a b c hnot
      cases h : sk s with
      | false => rfl
      | true => exact absurd ((hchar s a b c).mp h) hnot
    rcases Nat.eq_or_lt_of_le hlo with heq | hlt
    · -- base of the block: no parent counters left, so S must be empty
      have hS : S = [] := by
        rcases S with _ | ⟨s, rest⟩
        · rfl
        · exfalso
          have h1 := hpar s (by simp)
          have h2 := (hbound s (by simp)).1
          omega
      subst hS
      rw [levelDecs_nil, List.nil_append, heq]
    · obtain ⟨i', rfl⟩ : ∃ i', i = i' + 1 := ⟨i - 1, by omega⟩
      rw [decsFrom]
      rcases S with _ | ⟨s₁, rest⟩
      · -- empty known set: neither child of i' + 1 is known
        have hc1 : sk (2 * (i' + 1)) = false :=
          hskF _ (by omega) (by omega) (by omega) (by simp)
        have hc2 : sk (2 * (i' + 1) + 1) = false :=
          hskF _ (by omega) (by omega) (by omega) (by simp)
        rw [hc1, hc2]
        simp only [Bool.false_and, Bool.and_false, if_false, List.nil_append]
        rw [levelDecs_nil, List.nil_append]
        have := ihi i' (by omega) [] (by omega) (by omega) (by simp)
          (by simp) (by simp)
          (by intro s a b c; simp only [List.not_mem_nil, iff_false]
              have := hchar s a b (by omega)
              simpa using this)
        rw [levelDecs_nil, List.nil_append] at this
        exact this
      · have hmax : ∀ s ∈ rest, s < s₁ := chain'_gt_lt hchain
        obtain ⟨hs₁lo, hs₁hi⟩ := hbound s₁ (by simp)
        by_cases hp1 : s₁ / 2 = i' + 1
        · rcases Nat.even_or_odd s₁ with ⟨t, ht⟩ | ⟨t, ht⟩
          · -- the top remaining known node is the even child of i' + 1
            have hs₁ : s₁ = 2 * (i' + 1) := by omega
            have hs₁even : s₁ % 2 = 0 := by omega
            have hc1 : sk (2 * (i' + 1)) = true := by
              rw [← hs₁]; exact (hchar s₁ hs₁lo hs₁hi (by omega)).mpr (by simp)
            have hc2 : sk (2 * (i' + 1) + 1) = false := by
              apply hskF _ (by omega) (by omega) (by omega)
              intro hmem
              rcases List.mem_cons.mp hmem with h | h
              · omega
              · have := hmax _ h; omega
            rw [hc1, hc2]
            simp only [Bool.true_and, Bool.and_true, Bool.not_false, Bool.not_true,
              Bool.false_and, Bool.and_false, if_true, if_false]
            rw [levelDecs_even tree (by omega) rest]
            have hrec := ihi i' (by omega) rest (by omega) (by omega) hchain.tail
              (fun s hs => hbound s (by simp [hs]))
              (by intro s hs; have := hmax s hs; omega)
              (by intro s a b c
                  rw [hchar s a b (by omega)]
                  constructor
                  · intro h
                    rcases List.mem_cons.mp h with rfl | h
                    · omega
                    · exact h
                  · intro h; exact List.mem_cons.mpr (Or.inr h))
            rw [hrec]
            have : tree (2 * (i' + 1) + 1) = tree (s₁ + 1) := by rw [hs₁]
            rw [this]
            rfl
          · -- the top remaining known node is the odd child of i' + 1
            have hs₁ : s₁ = 2 * (i' + 1) + 1 := by omega
            have hs₁odd : s₁ % 2 = 1 := by omega
            have hc2 : sk (2 * (i' + 1) + 1) = true := by
              rw [← hs₁]; exact (hchar s₁ hs₁lo hs₁hi (by omega)).mpr (by simp)
            rcases rest with _ | ⟨s₂, rest₂⟩
            · -- singleton: the even sibling is unknown
              have hc1 : sk (2 * (i' + 1)) = false := by
                apply hskF _ (by omega) (by omega) (by omega)
                intro hmem
                rcases List.mem_cons.mp hmem with h | h
                · omega
                · simp at h
              rw [hc1, hc2]
              simp only [Bool.true_and, Bool.and_true, Bool.not_false, Bool.not_true,
                Bool.false_and, Bool.and_false, if_true, if_false]
              rw [levelDecs_single tree hs₁odd]
              have hrec := ihi i' (by omega) [] (by omega) (by omega) (by simp)
                (by simp) (by simp)
                (by intro s a b c; simp only [List.not_mem_nil, iff_false]
                    have := hchar s a b (by omega)
                    rw [this]
                    simp only [List.mem_singleton]
                    omega)
              rw [levelDecs_nil, List.nil_append] at hrec
              rw [hrec]
              have : tree (2 * (i' + 1)) = tree (s₁ - 1) := by
                congr 1; omega
              rw [this]
              rfl
            · have hs₂lt : s₂ < s₁ := hmax s₂ (by simp)
              by_cases hs2 : s₂ = s₁ - 1
              · -- adjacent pair: both children known, no decommitment
                have hc1 : sk (2 * (i' + 1)) = true := by
                  have : (2 * (i' + 1)) = s₂ := by omega
                  rw [this]
                  exact (hchar s₂ (hbound s₂ (by simp)).1 (hbound s₂ (by simp)).2
                    (by omega)).mpr (by simp)
                rw [hc1, hc2]
                simp only [Bool.true_and, Bool.and_true, Bool.not_true,
                  Bool.and_false, Bool.false_and, Bool.false_eq_true, if_false]
                rw [List.nil_append]
                have hpair : s₂ = s₁ - 1 := hs2
                rw [hpair, levelDecs_pair tree hs₁odd rest₂]
                apply ihi i' (by omega) rest₂ (by omega) (by omega)
                  hchain.tail.tail
                  (fun s hs => hbound s (by simp [hs]))
                  (by intro s hs
                      have := chain'_gt_lt hchain.tail s hs
                      omega)
                  (by intro s a b c
                      rw [hchar s a b (by omega)]
                      constructor
                      · intro h
                        rcases List.mem_cons.mp h with rfl | h
                        · omega
                        · rcases List.mem_cons.mp h with rfl | h
                          · omega
                          · exact h
                      · intro h
                        exact List.mem_cons.mpr (Or.inr (List.mem_cons.mpr (Or.inr h))))
              · -- lone odd node: the even sibling is an emitted decommitment
                have hc1 : sk (2 * (i' + 1)) = false := by
                  apply hskF _ (by omega) (by omega) (by omega)
                  intro hmem
                  rcases List.mem_cons.mp hmem with h | h
                  · omega
                  · have h1 := hmax _ h
                    have h2 := chain'_gt_lt hchain.tail
                    rcases List.mem_cons.mp h with rfl | h'
                    · omega
                    · have := h2 _ h'; omega
                rw [hc1, hc2]
                simp only [Bool.true_and, Bool.and_true, Bool.not_false, Bool.not_true,
                  Bool.false_and, Bool.and_false, if_true, if_false]
                rw [levelDecs_nonpair tree hs₁odd hs2]
                have hrec := ihi i' (by omega) (s₂ :: rest₂) (by omega) (by omega)
                  hchain.tail
                  (fun s hs => hbound s (by simp [hs]))
                  (by intro s hs
                      have h2 := chain'_gt_lt hchain.tail
                      rcases List.mem_cons.mp hs with rfl | h'
                      · omega
                      · have := h2 _ h'; omega)
                  (by intro s a b c
                      rw [hchar s a b (by omega)]
                      constructor
                      · intro h
                        rcases List.mem_cons.mp h with rfl | h
                        · omega
                        · exact h
                      · intro h; exact List.mem_cons.mpr (Or.inr h))
                rw [hrec]
                have : tree (2 * (i' + 1)) = tree (s₁ - 1) := by
                  congr 1; omega
                rw [this]
                rfl
        · -- no known child at this parent: nothing is emitted here
          have hp1' : s₁ / 2 ≤ i' := by
            have := hpar s₁ (by simp)
            omega
          have hnot1 : 2 * (i' + 1) ∉ s₁ :: rest := by
            intro hmem
            rcases List.mem_cons.mp hmem with h | h
            · omega
            · have := hmax _ h; omega
          have hnot2 : 2 * (i' + 1) + 1 ∉ s₁ :: rest := by
            intro hmem
            rcases List.mem_cons.mp hmem with h | h
            · omega
            · have := hmax _ h; omega
          have hc1 : sk (2 * (i' + 1)) = false :=
            hskF _ (by omega) (by omega) (by omega) hnot1
          have hc2 : sk (2 * (i' + 1) + 1) = false :=
            hskF _ (by omega) (by omega) (by omega) hnot2
          rw [hc1, hc2]
          simp only [Bool.false_and, Bool.and_false, if_false, List.nil_append]
          apply ihi i' (by omega) (s₁ :: rest) (by omega) (by omega) hchain hbound
            (by intro s hs
                rcases List.mem_cons.mp hs with rfl | h'
                · omega
                · have h1 := hmax _ h'
                  have := hpar s hs
                  omega)
            (fun s a b c => hchar s a b (by omega))

/-- Iterating `decsFrom_block` over all levels: the whole generator loop
emits the concatenation of the level passes. -/
lemma decsFrom_eq_levelDecsAll (tree : Nat → α) (sk : Nat → Bool) (L : Nat)
    (hrec : ∀ p, 1 ≤ p → p < L → sk p = (sk (2 * p) || sk (2 * p + 1))) :
    ∀ (l : Nat) (S : List Nat), 2 ^ l ≤ L →
      List.Chain' (· > ·) S →
      (∀ s ∈ S, 2 ^ l ≤ s ∧ s < 2 ^ (l + 1)) →
      (∀ s, 2 ^ l ≤ s → s < 2 ^ (l + 1) → (sk s = true ↔ s ∈ S)) →
      decsFrom tree sk (2 ^ l - 1) = levelDecsAll tree l S := by
  intro l
  induction l with
  | zero =>
    intro S _ _ _ _
    simp [decsFrom, levelDecsAll]
  | succ l ih =>
    intro S hL hchain hbound hchar
    have hA : (2 : Nat) ^ (l + 1) = 2 * 2 ^ l := by rw [Nat.pow_succ]; ring
    have hB : (2 : Nat) ^ (l + 2) = 2 * 2 ^ (l + 1) := by rw [Nat.pow_succ]; ring
    have hL1 : (1 : Nat) ≤ 2 ^ l := Nat.one_le_two_pow
    have hblock := decsFrom_block tree sk l (2 ^ (l + 1) - 1) S (by omega) (by omega)
      hchain hbound
      (by intro s hs; have := (hbound s hs).2; omega)
      (by intro s a b _; exact hchar s a b)
    rw [hblock, levelDecsAll]
    congr 1
    apply ih (levelParents S) (by omega) (levelParents_chain hchain)
      (by intro p hp
          obtain ⟨s, hs, rfl⟩ := levelParents_mem hp
          have := hbound s hs
          omega)
      (by intro p hplo hphi
          have hp1 : 1 ≤ p := by omega
          have hpL : p < L := by omega
          rw [hrec p hp1 hpL, mem_levelParents_iff]
          have hleft := hchar (2 * p) (by omega) (by omega)
          have hright := hchar (2 * p + 1) (by omega) (by omega)
          rw [Bool.or_eq_true, hleft, hright])

/-- Mapping `leafCount + ·` over the claimed indices and pairing with the
claimed values yields exactly the level-`d` entry queue. -/
lemma zip_map_entriesOf (tree : Nat → α) (c : Nat) :
    ∀ xs : List Nat,
      ((xs.zip (xs.map fun i => tree (c + i))).map fun p => (c + p.1, p.2))
        = entriesOf tree (xs.map (c + ·)) := by
  intro xs
  induction xs with
  | nil => rfl
  | cons a rest ih =>
    simp only [List.map_cons, List.zip_cons_cons, entriesOf] at *
    rw [ih]

lemma entriesOf_map_fst (tree : Nat → α) (S : List Nat) :
    (entriesOf tree S).map Prod.fst = S := by
  induction S with
  | nil => rfl
  | cons a rest ih => simp only [entriesOf, List.map_cons] at ih ⊢; rw [ih]

lemma stepsAll_le : ∀ (l : Nat) (S : List Nat), stepsAll l S ≤ l * S.length := by
  intro l
  induction l with
  | zero => intro S; simp [stepsAll]
  | succ l ih =>
    intro S
    rw [stepsAll]
    have h1 := levelParents_length S
    have h2 := ih (levelParents S)
    have h3 : l * (levelParents S).length ≤ l * S.length :=
      Nat.mul_le_mul_left l h1
    calc (levelParents S).length + stepsAll l (levelParents S)
        ≤ S.length + l * S.length := by omega
    _ = (l + 1) * S.length := by ring

lemma sum_ge_of_all_ge {c : Nat} : ∀ S : List Nat, (∀ s ∈ S, c ≤ s) →
    c * S.length ≤ S.sum := by
  intro S
  induction S with
  | nil => simp
  | cons a rest ih =>
    intro h
    have h1 := h a (by simp)
    have h2 := ih fun s hs => h s (by simp [hs])
    simp only [List.sum_cons, List.length_cons]
    calc c * (rest.length + 1) = c + c * rest.length := by ring
    _ ≤ a + rest.sum := by omega

end Generator

/-! ## Claim C1: the balanced-tree round-trip -/

/-- C1: for every well-formed balanced tree array (`leafCount = 2^depth`
leaves in a level-order array with the root at index 1, the mixed root at
index 0 satisfying the mixed-root invariant, and every internal node the
hash of its two children) and every non-empty strictly descending list of
leaf indices below `leafCount`, `verifyMultiProof` applied to the fields
produced by `generateMultiProof(tree, indices)` returns `true`. -/
theorem verify_generateMultiProof_roundtrip {α : Type} [DecidableEq α] [Inhabited α]
    (hash : α → α → α) (encode : Nat → α) (tree : Nat → α) (d : Nat) (indices : List Nat)
    (hwf : ∀ p, 1 ≤ p → p < 2 ^ d → tree p = hash (tree (2 * p)) (tree (2 * p + 1)))
    (hmix : tree 0 = hash (encode (2 ^ d)) (tree 1))
    (hne : indices ≠ [])
    (hdesc : List.Chain' (· > ·) indices)
    (hlt : ∀ i ∈ indices, i < 2 ^ d) :
    verifyMultiProof hash encode (generateMultiProof tree d indices).mixedRoot
      (generateMultiProof tree d indices).root
      (generateMultiProof tree d indices).leafCount
      (generateMultiProof tree d indices).indices
      (generateMultiProof tree d indices).values
      (generateMultiProof tree d indices).decommitments = VOut.ret true := by
  have hL1 : (1 : Nat) ≤ 2 ^ d := Nat.one_le_two_pow
  have hpow : (2 : Nat) ^ (d + 1) = 2 * 2 ^ d := by rw [Nat.pow_succ]; ring
  have hdlt : d < 2 ^ d := Nat.lt_two_pow d
  set L := 2 ^ d with hLdef
  set S : List Nat := indices.map (L + ·) with hSdef
  set leafSet : Nat → Bool := fun j => decide (j ∈ S) with hleafSet
  set sk : Nat → Bool := subtreeKnown L leafSet with hskdef
  -- facts about the shifted index list
  have hSne : S ≠ [] := by
    rw [hSdef]
    intro h
    exact hne (List.map_eq_nil_iff.mp h)
  have hSchain : List.Chain' (· > ·) S := by
    rw [hSdef, List.chain'_map]
    exact hdesc.imp fun a b h => by omega
  have hSbound : ∀ s ∈ S, 2 ^ d ≤ s ∧ s < 2 ^ (d + 1) := by
    intro s hs
    rw [hSdef] at hs
    obtain ⟨i, hi, rfl⟩ := List.mem_map.mp hs
    have := hlt i hi
    omega
  -- the generator's decommitments, in level form
  have hk0 : ∀ j, L - 1 < j →
      (indices.foldl (fun k i => Function.update k (L + i) true) fun _ => false) j
        = sk j := by
    intro j hj
    rw [foldl_update_eq]
    simp only [Bool.false_or]
    rw [hskdef, subtreeKnown]
    have hj0 : ¬(j = 0) := by omega
    have hjL : L ≤ j := by omega
    simp only [hj0, hjL, if_false, if_true, hleafSet]
  have hdecs : (genAux tree
      (indices.foldl (fun k i => Function.update k (L + i) true) fun _ => false)
      (L - 1)).2 = decsFrom tree sk (L - 1) := by
    exact genAux_snd tree L leafSet (L - 1) (by omega) _ hk0
  have hrec : ∀ p, 1 ≤ p → p < L → sk p = (sk (2 * p) || sk (2 * p + 1)) := by
    intro p h1 h2
    rw [hskdef]
    conv_lhs => rw [subtreeKnown]
    have hp0 : ¬(p = 0) := by omega
    have hpL : ¬(L ≤ p) := by omega
    simp [hp0, hpL]
  have hchar : ∀ s, 2 ^ d ≤ s → s < 2 ^ (d + 1) → (sk s = true ↔ s ∈ S) := by
    intro s hs1 hs2
    rw [hskdef, subtreeKnown]
    have h0 : ¬(s = 0) := by omega
    have hLs : L ≤ s := hs1
    simp only [h0, hLs, if_false, if_true, hleafSet]
    simp
  have hgen : decsFrom tree sk (L - 1) = levelDecsAll tree d S := by
    have := decsFrom_eq_levelDecsAll tree sk L hrec d S (le_refl _) hSchain hSbound hchar
    have hL' : (2 : Nat) ^ d = L := rfl
    rwa [hL'] at this
  -- fuel accounting
  have hsteps : stepsAll d S ≤ S.sum := by
    calc stepsAll d S ≤ d * S.length := stepsAll_le d S
    _ ≤ L * S.length := Nat.mul_le_mul_right _ (by omega)
    _ ≤ S.sum := sum_ge_of_all_ge S fun s hs => (hSbound s hs).1
  -- run the verifier level by level
  have hchainrun := vmLoop_chain hash (tree 1) tree d S hSne hSchain hSbound hwf
    (S.sum + 1 - stepsAll d S) []
  rw [List.append_nil] at hchainrun
  have harith : stepsAll d S + (S.sum + 1 - stepsAll d S) = S.sum + 1 := by omega
  rw [harith] at hchainrun
  -- unfold the two functions
  show verifyMultiProof hash encode (tree 0) (tree 1) L indices
    (indices.map fun i => tree (L + i))
    (genAux tree (indices.foldl (fun k i => Function.update k (L + i) true)
      fun _ => false) (L - 1)).2 = VOut.ret true
  rw [verifyMultiProof]
  have hval : validateMixedRoot hash encode (tree 0) (tree 1) L = true := by
    simp [validateMixedRoot, hmix]
  rw [hval]
  simp only [Bool.not_true, Bool.false_eq_true, if_false]
  rw [zip_map_entriesOf tree L indices]
  rw [entriesOf_map_fst]
  rw [hdecs, hgen, hchainrun]
  obtain ⟨f', hf'⟩ : ∃ f', S.sum + 1 - stepsAll d S = f' + 1 :=
    ⟨S.sum - stepsAll d S, by omega⟩
  rw [hf', vmLoop_ret]
  simp

/-- Witness for C1: a concrete well-formed 2-leaf tree, proving both leaves. -/
theorem verify_generateMultiProof_roundtrip_witness :
    verifyMultiProof (fun a b : Nat => (a + b) * (a + b + 1) / 2 + b + 1) id
      (generateMultiProof
        (fun i => if i = 0 then 1483 else if i = 1 then 51 else if i = 2 then 4
                  else if i = 3 then 5 else 0) 1 [1, 0]).mixedRoot
      (generateMultiProof
        (fun i => if i = 0 then 1483 else if i = 1 then 51 else if i = 2 then 4
                  else if i = 3 then 5 else 0) 1 [1, 0]).root
      (generateMultiProof
        (fun i => if i = 0 then 1483 else if i = 1 then 51 else if i = 2 then 4
                  else if i = 3 then 5 else 0) 1 [1, 0]).leafCount
      (generateMultiProof
        (fun i => if i = 0 then 1483 else if i = 1 then 51 else if i = 2 then 4
                  else if i = 3 then 5 else 0) 1 [1, 0]).indices
      (generateMultiProof
        (fun i => if i = 0 then 1483 else if i = 1 then 51 else if i = 2 then 4
                  else if i = 3 then 5 else 0) 1 [1, 0]).values
      (generateMultiProof
        (fun i => if i = 0 then 1483 else if i = 1 then 51 else if i = 2 then 4
                  else if i = 3 then 5 else 0) 1 [1, 0]).decommitments
      = VOut.ret true := by
  apply verify_generateMultiProof_roundtrip
  · intro p h1 h2
    have h2' : p < 2 := by simpa using h2
    have hp : p = 1 := by omega
    subst hp
    decide
  · decide
  · decide
  · exact List.chain'_cons.mpr ⟨by norm_num, List.chain'_singleton 0⟩
  · decide

/-! ## Claims C9 and C10: `verifyMultiProof` failure modes -/

/-- C9: `verifyMultiProof` reports cryptographic failure by returning
`false`, never by throwing.  First conjunct: whenever the mixed-root
invariant check fails, the function returns `false` regardless of the
indices, values and decommitments — no reconstruction or hashing of the
supplied values takes place.  Second conjunct: whenever the reconstruction
loop reaches tree index 1 with a value different from the expected root, it
returns `false`. -/
theorem verifyMultiProof_returns_false {α : Type} [DecidableEq α] [Inhabited α]
    (hash : α → α → α) (encode : Nat → α) :
    (∀ (mixedRoot root : α) (leafCount : Nat) (indices : List Nat) (values ds : List α),
      validateMixedRoot hash encode mixedRoot root leafCount = false →
      verifyMultiProof hash encode mixedRoot root leafCount indices values ds
        = VOut.ret false)
    ∧ (∀ (root v : α) (fuel : Nat) (queue : List (Nat × α)) (ds : List α),
      v ≠ root →
      vmLoop hash root (fuel + 1) ((1, v) :: queue) ds = VOut.ret false) := by
  constructor
  · intro mixedRoot root leafCount indices values ds h
    rw [verifyMultiProof, h]
    simp
  · intro root v fuel queue ds hv
    rw [vmLoop_ret]
    simp [hv]

/-- Witness for C9 at concrete inputs: a failing mixed root, and a root
mismatch at tree index 1. -/
theorem verifyMultiProof_returns_false_witness :
    verifyMultiProof (fun a b : Nat => a + b) id 0 1 2 [0] [9] [] = VOut.ret false
    ∧ vmLoop (fun a b : Nat => a + b) 7 1 [(1, 5)] [] = VOut.ret false := by
  constructor
  · exact (verifyMultiProof_returns_false (fun a b : Nat => a + b) id).1 0 1 2 [0] [9] []
      (by decide)
  · exact (verifyMultiProof_returns_false (fun a b : Nat => a + b) id).2 7 5 0 [] []
      (by decide)

/-- C10: with an empty `indices`/`values` list and a mixed root that passes
the mixed-root check, `verifyMultiProof` hits the
`assert(queue.length >= 1, 'Something went wrong.')` on the first loop
iteration rather than returning any boolean: membership of zero elements is
never confirmable through this interface. -/
theorem verifyMultiProof_empty_assertFail {α : Type} [DecidableEq α] [Inhabited α]
    (hash : α → α → α) (encode : Nat → α) (mixedRoot root : α) (leafCount : Nat)
    (ds : List α)
    (hval : validateMixedRoot hash encode mixedRoot root leafCount = true) :
    verifyMultiProof hash encode mixedRoot root leafCount [] [] ds
      = VOut.assertFail := by
  rw [verifyMultiProof, hval]
  simp [vmLoop]

/-- Witness for C10 at a concrete passing mixed root. -/
theorem verifyMultiProof_empty_assertFail_witness :
    verifyMultiProof (fun a b : Nat => a + b) id 5 3 2 [] [] [] = VOut.assertFail :=
  verifyMultiProof_empty_assertFail (fun a b : Nat => a + b) id 5 3 2 [] (by decide)

/-! ## The combined multi-and-append proof decoders (the unnamed source file)

`getRootBooleans` and `getRootBits` interpret a flag/skip proof over a
circular hash queue while inferring append-proof decommitments.  The state
below carries the source's locals; `hashes`/`appendDecommitments` slots
start as JavaScript `null`, hence `Option α` entries.  The `hash`
accumulator (called `accHash` here, since `hash` already names the hash
function) starts `undefined`, hence `Option α`.  The cursor
`appendDecommitmentIndex` is an `Int` exactly like the JavaScript number
(it would go negative on a decrement at zero; the bookkeeping theorem
below shows the run keeps it at `bitCount32 elementCount` minus the number
of records).  `recordCount` is a ghost field counting append-decommitment
records; the source has no such variable, and no branch reads it.

Failure model: applying the caller's `hashFunction` to an `undefined`
operand, or returning `Buffer.from(undefined)` / calling
`undefined.equals`, throws in JavaScript and is surfaced as
`MPErr.typeError`; the `assert(..., 'Invalid Proof.')` failure is
`MPErr.invalidProof`; `MPErr.outOfFuel` is the (unreachable) fuel bound of
the packed-bit `while (true)` loop, which always terminates within 257
iterations because the 32-byte `bitCheck` buffer shifts to zero. -/

inductive MPErr
  | invalidProof
  | typeError
  | outOfFuel
deriving DecidableEq, Repr

structure MPState (α : Type) where
  readIndex : Nat
  writeIndex : Nat
  decommitmentIndex : Nat
  useLeafs : Bool
  appendNodeIndex : Nat
  readIndexOfAppendNode : Nat
  appendDecommitmentIndex : Int
  hashes : List (Option α)
  appendDecommitments : List (Option α)
  accHash : Option α
  recordCount : Nat
deriving DecidableEq, Repr

/-- The locals of `getRootBooleans`/`getRootBits` before the first
iteration. -/
def grInitial (α : Type) (leafCount elementCount : Nat) : MPState α :=
  { readIndex := 0
    writeIndex := 0
    decommitmentIndex := 0
    useLeafs := true
    appendNodeIndex := elementCount
    readIndexOfAppendNode := 0
    appendDecommitmentIndex := bitCount32 elementCount
    hashes := List.replicate leafCount none
    appendDecommitments := List.replicate (bitCount32 elementCount) none
    accHash := none
    recordCount := 0 }

/-- One iteration of the shared loop body of `getRootBooleans` and
`getRootBits` (the source duplicates this text verbatim in both functions,
differing only in how `flag`/`skip` are read). -/
def grStep {α : Type} (hashFunction : α → α → α) (leafs : List α)
    (decommitments : List α) (flag skip : Bool) (st : MPState α) :
    Except MPErr (MPState α) :=
  let leafCount := leafs.length
  if skip then
    let skippedHash : Option α :=
      if st.useLeafs then leafs.get? st.readIndex else st.hashes.getD st.readIndex none
    let readIndex := st.readIndex + 1
    let st :=
      if st.appendNodeIndex % 2 = 1 then
        { st with
          appendDecommitments :=
            st.appendDecommitments.set (st.appendDecommitmentIndex - 1).toNat skippedHash
          appendDecommitmentIndex := st.appendDecommitmentIndex - 1
          accHash := skippedHash
          recordCount := st.recordCount + 1 }
      else st
    let st := { st with readIndexOfAppendNode := st.writeIndex
                        appendNodeIndex := st.appendNodeIndex / 2 }
    let hashes := st.hashes.set st.writeIndex skippedHash
    let writeIndex := st.writeIndex + 1
    let useLeafs := if st.useLeafs && readIndex = leafCount then false else st.useLeafs
    Except.ok { st with hashes := hashes
                        writeIndex := writeIndex % leafCount
                        readIndex := readIndex % leafCount
                        useLeafs := useLeafs }
  else
    let nextReadIndex := (st.readIndex + 1) % leafCount
    let appendHash : Option α :=
      if flag then
        (if st.useLeafs then leafs.get? nextReadIndex
         else st.hashes.getD nextReadIndex none)
      else decommitments.get? st.decommitmentIndex
    let boundary : Except MPErr (MPState α) :=
      if st.readIndexOfAppendNode = st.readIndex then
        if st.appendNodeIndex % 2 = 1 then
          match appendHash, st.accHash with
          | some a, some h =>
            Except.ok { st with
              appendDecommitments :=
                st.appendDecommitments.set (st.appendDecommitmentIndex - 1).toNat (some a)
              appendDecommitmentIndex := st.appendDecommitmentIndex - 1
              accHash := some (hashFunction a h)
              recordCount := st.recordCount + 1
              readIndexOfAppendNode := st.writeIndex
              appendNodeIndex := st.appendNodeIndex / 2 }
          | _, _ => Except.error MPErr.typeError
        else
          Except.ok { st with readIndexOfAppendNode := st.writeIndex
                              appendNodeIndex := st.appendNodeIndex / 2 }
      else Except.ok st
    match boundary with
    | Except.error e => Except.error e
    | Except.ok st =>
      let readDec :=
        if flag then
          ((if st.useLeafs then leafs.get? st.readIndex
            else st.hashes.getD st.readIndex none),
           st.readIndex + 1, st.decommitmentIndex)
        else
          (decommitments.get? st.decommitmentIndex, st.readIndex,
           st.decommitmentIndex + 1)
      let right : Option α := readDec.1
      let readIndex := readDec.2.1 % leafCount
      let decommitmentIndex := readDec.2.2
      let left : Option α :=
        if st.useLeafs then leafs.get? readIndex else st.hashes.getD readIndex none
      let readIndex := readIndex + 1
      match left, right with
      | some lv, some rv =>
        let hashes := st.hashes.set st.writeIndex (some (hashFunction lv rv))
        let writeIndex := st.writeIndex + 1
        let useLeafs := if st.useLeafs && readIndex = leafCount then false else st.useLeafs
        Except.ok { st with hashes := hashes
                            writeIndex := writeIndex % leafCount
                            readIndex := readIndex % leafCount
                            decommitmentIndex := decommitmentIndex
                            useLeafs := useLeafs }
      | _, _ => Except.error MPErr.typeError

structure MPRootResult (α : Type) where
  root : α
  state : MPState α
deriving DecidableEq, Repr

/-- The root value read at the end of the loop:
`useLeafs ? leafs[0] : hashes[(writeIndex === 0 ? leafCount : writeIndex) - 1]`. -/
def grRootVal {α : Type} (leafs : List α) (st : MPState α) : Option α :=
  if st.useLeafs then leafs.get? 0
  else st.hashes.getD ((if st.writeIndex = 0 then leafs.length else st.writeIndex) - 1) none

/-- The epilogue shared by both decoders:
`assert(appendDecommitmentIndex === 1 || hash.equals(root), 'Invalid Proof.')`
followed by `return { root: Buffer.from(root) }`.  The JavaScript result
object carries only `root`; the final state is also surfaced so that
properties of the run's bookkeeping can be stated. -/
def grFinalize {α : Type} [DecidableEq α] (leafs : List α) (st : MPState α) :
    Except MPErr (MPRootResult α) :=
  if st.appendDecommitmentIndex = 1 then
    match grRootVal leafs st with
    | some r => Except.ok ⟨r, st⟩
    | none => Except.error MPErr.typeError
  else
    match st.accHash, grRootVal leafs st with
    | some h, some r =>
      if h = r then Except.ok ⟨r, st⟩ else Except.error MPErr.invalidProof
    | _, _ => Except.error MPErr.typeError

/-- `getRootBooleans` from the combined-proof file: iterate the loop body
over the boolean `flags`/`skips` arrays (an out-of-range `skips[i]` or
`flags[i]` is `undefined`, which is falsy, hence `getD i false`), then run
the epilogue. -/
def getRootBooleans {α : Type} [DecidableEq α] (hashFunction : α → α → α)
    (leafs : List α) (elementCount : Nat) (flags skips : List Bool)
    (decommitments : List α) : Except MPErr (MPRootResult α) := do
  let st ← (List.range flags.length).foldlM
    (fun st i =>
      grStep hashFunction leafs decommitments (flags.getD i false) (skips.getD i false) st)
    (grInitial α leafs.length elementCount)
  grFinalize leafs st

/-- The `while (true)` loop of `getRootBits`: `bitCheck` starts at 1 and is
shifted left through the 32-byte buffer (so it becomes 0 after 256 shifts,
and `and(x, 0).equals(0)` is `true`, forcing termination within 257
iterations; the fuel is therefore never exhausted).  `flags`/`skips` are
the buffers' little-endian values. -/
def getRootBitsLoop {α : Type} [DecidableEq α] (hashFunction : α → α → α)
    (leafs : List α) (decommitments : List α) (flags skips : Nat) :
    Nat → Nat → MPState α → Except MPErr (MPRootResult α)
  | 0, _, _ => Except.error MPErr.outOfFuel
  | fuel + 1, bitCheck, st =>
    let flag := Nat.land flags bitCheck = bitCheck
    if Nat.land skips bitCheck = bitCheck then
      if flag then grFinalize leafs st
      else
        match grStep hashFunction leafs decommitments flag true st with
        | Except.error e => Except.error e
        | Except.ok st =>
          getRootBitsLoop hashFunction leafs decommitments flags skips fuel
            (bitCheck * 2 % 2 ^ 256) st
    else
      match grStep hashFunction leafs decommitments flag false st with
      | Except.error e => Except.error e
      | Except.ok st =>
        getRootBitsLoop hashFunction leafs decommitments flags skips fuel
          (bitCheck * 2 % 2 ^ 256) st

/-- `getRootBits` from the combined-proof file.  In the source the proof is
one array with `proof[0] = flags`, `proof[1] = skips` and
`proof.slice(2) = decommitments`; the three parts are passed unpacked
here. -/
def getRootBits {α : Type} [DecidableEq α] (hashFunction : α → α → α)
    (leafs : List α) (elementCount : Nat) (flags skips : Nat)
    (decommitments : List α) : Except MPErr (MPRootResult α) :=
  getRootBitsLoop hashFunction leafs decommitments flags skips 257 1
    (grInitial α leafs.length elementCount)

/-! ### Claim C2: equivalence of the boolean-array and packed-bit decoders -/

lemma except_ok_bind {ε β γ : Type} (x : β) (f : β → Except ε γ) :
    (Except.ok (ε := ε) x >>= f) = f x := rfl

lemma except_error_bind {ε β γ : Type} (e : ε) (f : β → Except ε γ) :
    ((Except.error e : Except ε β) >>= f) = Except.error e := rfl

/-- `and(x, bitCheck).equals(bitCheck)` for `bitCheck = 2^i` is exactly bit
`i` of `x`. -/
lemma land_two_pow_eq_iff (x i : Nat) :
    (Nat.land x (2 ^ i) = 2 ^ i) ↔ x.testBit i = true := by
  show ((x &&& 2 ^ i) = 2 ^ i) ↔ x.testBit i = true
  constructor
  · intro h
    have := congrArg (fun y => y.testBit i) h
    simp only [Nat.testBit_land, Nat.testBit_two_pow_self, Bool.and_true] at this
    exact this
  · intro h
    apply Nat.eq_of_testBit_eq
    intro j
    simp only [Nat.testBit_land, Nat.testBit_two_pow]
    by_cases hij : i = j
    · subst hij; simp [h]
    · simp [hij]

/-- The packed-bit loop from bit position `j` coincides with the remaining
boolean-array iterations, for proofs whose bits agree below the sentinel
and carry no interior skip-and-flag pair. -/
lemma getRootBitsLoop_eq {α : Type} [DecidableEq α] (hashFunction : α → α → α)
    (leafs ds : List α) (flags skips : List Bool) (fN sN : Nat) (n : Nat)
    (hfb : ∀ i < n, fN.testBit i = flags.getD i false)
    (hsb : ∀ i < n, sN.testBit i = skips.getD i false)
    (hsent : fN.testBit n = true ∧ sN.testBit n = true)
    (hint : ∀ i < n, ¬(skips.getD i false = true ∧ flags.getD i false = true))
    (hn256 : n < 256) :
    ∀ j, j ≤ n → ∀ st : MPState α,
      getRootBitsLoop hashFunction leafs ds fN sN (257 - j) (2 ^ j % 2 ^ 256) st
        = (List.range' j (n - j)).foldlM
            (fun st i =>
              grStep hashFunction leafs ds (flags.getD i false) (skips.getD i false) st)
            st >>= grFinalize leafs := by
  suffices H : ∀ m j, j ≤ n → n - j = m → ∀ st : MPState α,
      getRootBitsLoop hashFunction leafs ds fN sN (257 - j) (2 ^ j % 2 ^ 256) st
        = (List.range' j (n - j)).foldlM
            (fun st i =>
              grStep hashFunction leafs ds (flags.getD i false) (skips.getD i false) st)
            st >>= grFinalize leafs by
    intro j hj st
    exact H (n - j) j hj rfl st
  intro m
  induction m with
  | zero =>
    intro j hj hd st
    have hjn : j = n := by omega
    subst hjn
    obtain ⟨fuel, hfuel⟩ : ∃ fuel, 257 - j = fuel + 1 := ⟨256 - j, by omega⟩
    rw [hfuel, getRootBitsLoop]
    have hbc : 2 ^ j % 2 ^ 256 = 2 ^ j :=
      Nat.mod_eq_of_lt (Nat.pow_lt_pow_right (by norm_num) hn256)
    rw [hbc]
    have hskipT : Nat.land sN (2 ^ j) = 2 ^ j := (land_two_pow_eq_iff sN j).mpr hsent.2
    have hflagT : Nat.land fN (2 ^ j) = 2 ^ j := (land_two_pow_eq_iff fN j).mpr hsent.1
    simp [hskipT, hflagT]
  | succ m ihm =>
    intro j hj hd st
    obtain ⟨fuel, hfuel⟩ : ∃ fuel, 257 - j = fuel + 1 := ⟨256 - j, by omega⟩
    rw [hfuel, getRootBitsLoop]
    have hjlt : j < n := by omega
    have hbc : 2 ^ j % 2 ^ 256 = 2 ^ j :=
      Nat.mod_eq_of_lt (Nat.pow_lt_pow_right (by norm_num) (by omega))
    rw [hbc]
    have hflag : (Nat.land fN (2 ^ j) = 2 ^ j) = (flags.getD j false = true) := by
      rw [land_two_pow_eq_iff, hfb j hjlt]
    have hskip : (Nat.land sN (2 ^ j) = 2 ^ j) = (skips.getD j false = true) := by
      rw [land_two_pow_eq_iff, hsb j hjlt]
    have hrange : List.range' j (n - j) = j :: List.range' (j + 1) m := by
      have : n - j = m + 1 := hd
      rw [this, List.range'_succ]
    rw [hrange, List.foldlM_cons]
    have hbcnext : 2 ^ j * 2 % 2 ^ 256 = 2 ^ (j + 1) % 2 ^ 256 := by
      have hps : (2 : Nat) ^ (j + 1) = 2 ^ j * 2 := pow_succ 2 j
      rw [hps]
    have hfuelnext : fuel = 257 - (j + 1) := by omega
    by_cases hs : skips.getD j false = true
    · have hf : flags.getD j false = false := by
        rcases Bool.eq_false_or_eq_true (flags.getD j false) with h | h
        · exact absurd ⟨hs, h⟩ (hint j hjlt)
        · exact h
      rw [if_pos (by rw [hskip]; exact hs)]
      rw [if_neg (by rw [hflag, hf]; simp)]
      have hbool : (Nat.land fN (2 ^ j) = 2 ^ j) = False := by
        rw [hflag, hf]; simp
      have hfl : (decide (Nat.land fN (2 ^ j) = 2 ^ j)) = flags.getD j false := by
        rw [hf]
        simp [hbool]
      rw [hs]
      cases hstep : grStep hashFunction leafs ds (flags.getD j false) true st with
      | error e =>
        rw [← hfl] at hstep
        simp only [hstep, except_error_bind]
      | ok st' =>
        rw [← hfl] at hstep
        simp only [hstep, except_ok_bind]
        have hrest := ihm (j + 1) (by omega) (by omega) st'
        have hm : n - (j + 1) = m := by omega
        rw [hm] at hrest
        rw [hbcnext, hfuelnext, hrest]
    · have hs' : skips.getD j false = false := by
        cases hb : skips.getD j false with
        | false => rfl
        | true => exact absurd hb hs
      rw [if_neg (by rw [hskip, hs']; simp)]
      have hfl : (decide (Nat.land fN (2 ^ j) = 2 ^ j)) = flags.getD j false := by
        cases hb : flags.getD j false with
        | false =>
          have hnb : ¬(Nat.land fN (2 ^ j) = 2 ^ j) := by rw [hflag, hb]; simp
          simp [hnb]
        | true =>
          have hyb : Nat.land fN (2 ^ j) = 2 ^ j := by rw [hflag, hb]
          simp [hyb]
      rw [hs']
      cases hstep : grStep hashFunction leafs ds (flags.getD j false) false st with
      | error e =>
        rw [← hfl] at hstep
        simp only [hstep, except_error_bind]
      | ok st' =>
        rw [← hfl] at hstep
        simp only [hstep, except_ok_bind]
        have hrest := ihm (j + 1) (by omega) (by omega) st'
        have hm : n - (j + 1) = m := by omega
        rw [hm] at hrest
        rw [hbcnext, hfuelnext, hrest]

/-- C2 (amended): a proof expressible in both encodings — equal-length
boolean arrays whose bits agree with the packed 32-byte bit-vectors below
the sentinel, the sentinel `skip && flag` at position `n`, *and no interior
position carrying both skip and flag* (the packed decoder would stop there,
so such proofs are not expressible in packed form) — yields literally the
same result from `getRootBooleans` and `getRootBits`: same root, same final
bookkeeping state (including the recorded append-decommitments), or the
same error. -/
theorem getRootBooleans_eq_getRootBits {α : Type} [DecidableEq α]
    (hashFunction : α → α → α) (leafs : List α) (elementCount : Nat)
    (flags skips : List Bool) (fN sN : Nat) (decommitments : List α)
    (_hlen : skips.length = flags.length)
    (hfN : fN < 2 ^ 256) (_hsN : sN < 2 ^ 256)
    (hfb : ∀ i < flags.length, fN.testBit i = flags.getD i false)
    (hsb : ∀ i < flags.length, sN.testBit i = skips.getD i false)
    (hsent : fN.testBit flags.length = true ∧ sN.testBit flags.length = true)
    (hint : ∀ i < flags.length,
      ¬(skips.getD i false = true ∧ flags.getD i false = true)) :
    getRootBooleans hashFunction leafs elementCount flags skips decommitments
      = getRootBits hashFunction leafs elementCount fN sN decommitments := by
  have hn256 : flags.length < 256 := by
    by_contra h
    push_neg at h
    have hlt : fN < 2 ^ flags.length :=
      lt_of_lt_of_le hfN (Nat.pow_le_pow_right (by norm_num) h)
    have := Nat.testBit_lt_two_pow hlt
    rw [this] at hsent
    exact absurd hsent.1 (by simp)
  have hloop := getRootBitsLoop_eq hashFunction leafs decommitments flags skips fN sN
    flags.length hfb hsb hsent hint hn256 0 (Nat.zero_le _)
    (grInitial α leafs.length elementCount)
  have h257 : 257 - 0 = 257 := rfl
  have hone : 2 ^ 0 % 2 ^ 256 = 1 := by norm_num
  rw [h257, hone, Nat.sub_zero] at hloop
  rw [getRootBooleans, getRootBits, ← List.range_eq_range'] at *
  rw [hloop]

deriving instance DecidableEq for Except

/-- Counterexample to C2 as stated: an input satisfying the claim's listed
expressibility conditions (equal-length boolean arrays, packed bits agreeing
at positions 0 and 1, sentinel skip-and-flag at position 2) on which the two
decoders nevertheless disagree, because position 0 carries both skip and
flag: the boolean decoder treats it as a skip while the packed decoder reads
it as the end-of-proof sentinel. -/
theorem getRoot_flag_bit_counterexample :
    ((5 : Nat).testBit 0 = [true, false].getD 0 false
      ∧ (5 : Nat).testBit 1 = [true, false].getD 1 false
      ∧ (5 : Nat).testBit 2 = true)
    ∧ getRootBooleans (fun a b : Nat => 2 * a + 3 * b + 1) [5, 7] 2
        [true, false] [true, false] []
      ≠ getRootBits (fun a b : Nat => 2 * a + 3 * b + 1) [5, 7] 2 5 5 [] := by
  constructor
  · exact ⟨by decide, by decide, by decide⟩
  · decide

/-- Witness for the amended C2 at a concrete expressible proof
(`elementCount = 3`, one skip then one decommitment combine). -/
theorem getRootBooleans_eq_getRootBits_witness :
    getRootBooleans (fun a b : Nat => 2 * a + 3 * b + 1) [5, 7] 3
      [false, false] [true, false] [11, 99]
      = getRootBits (fun a b : Nat => 2 * a + 3 * b + 1) [5, 7] 3 4 5 [11, 99] := by
  apply getRootBooleans_eq_getRootBits
  · decide
  · decide
  · decide
  · decide
  · decide
  · exact ⟨by decide, by decide⟩
  · decide

/-! ### Claims C3 and C4: the final cross-check and the append bookkeeping -/

/-- The loop body never raises the `'Invalid Proof.'` assertion: its only
failure is a JavaScript type error from an `undefined` operand. -/
lemma grStep_error_eq {α : Type} (hashFunction : α → α → α) (leafs ds : List α)
    (flag skip : Bool) (st : MPState α) (e : MPErr)
    (h : grStep hashFunction leafs ds flag skip st = Except.error e) :
    e = MPErr.typeError := by
  rw [grStep] at h
  dsimp only at h
  split at h
  · exact absurd h (by simp)
  · split at h
    · rename_i e' heq
      simp only [Except.error.injEq] at h
      subst h
      split at heq
      · split at heq
        · split at heq
          · exact absurd heq (by simp)
          · simp only [Except.error.injEq] at heq
            exact heq.symm
        · exact absurd heq (by simp)
      · exact absurd heq (by simp)
    · split at h
      · exact absurd h (by simp)
      · simp only [Except.error.injEq] at h
        exact h.symm

/-- Error propagation through the boolean-array loop: a failing run failed
with a type error, never with the proof assertion. -/
lemma foldlM_grStep_error {α : Type} (hashFunction : α → α → α) (leafs ds : List α)
    (flags skips : List Bool) :
    ∀ (l : List Nat) (st : MPState α) (e : MPErr),
      l.foldlM
        (fun st i =>
          grStep hashFunction leafs ds (flags.getD i false) (skips.getD i false) st) st
        = Except.error e → e = MPErr.typeError := by
  intro l
  induction l with
  | nil => intro st e h; exact absurd h (by simp [List.foldlM_nil, pure, Except.pure])
  | cons a rest ih =>
    intro st e h
    rw [List.foldlM_cons] at h
    cases hstep : grStep hashFunction leafs ds (flags.getD a false) (skips.getD a false) st with
    | error e' =>
      rw [hstep, except_error_bind] at h
      simp only [Except.error.injEq] at h
      subst h
      exact grStep_error_eq hashFunction leafs ds _ _ st _ hstep
    | ok st' =>
      rw [hstep, except_ok_bind] at h
      exact ih st' e h

/-- The epilogue raises `'Invalid Proof.'` exactly when the cursor did not
end at 1 and the accumulated append-root is a value different from the read
root. -/
lemma grFinalize_invalidProof_iff {α : Type} [DecidableEq α] (leafs : List α)
    (st : MPState α) :
    grFinalize leafs st = Except.error MPErr.invalidProof
      ↔ st.appendDecommitmentIndex ≠ 1
        ∧ ∃ h r, st.accHash = some h ∧ grRootVal leafs st = some r ∧ h ≠ r := by
  rw [grFinalize]
  split
  · rename_i hcur
    constructor
    · intro h
      split at h <;> simp at h
    · rintro ⟨hne, -⟩
      exact absurd hcur hne
  · rename_i hcur
    constructor
    · intro h
      refine ⟨hcur, ?_⟩
      split at h
      · rename_i h' r hacc hroot
        split at h
        · simp at h
        · rename_i hne
          exact ⟨h', r, hacc, hroot, hne⟩
      · simp at h
    · rintro ⟨-, h, r, hacc, hroot, hne⟩
      rw [hacc, hroot]
      simp [hne]

/-- The epilogue with the cursor at 1 skips the cross-check entirely and
returns the read root. -/
lemma grFinalize_cursor_one {α : Type} [DecidableEq α] (leafs : List α)
    (st : MPState α) (r : α) (h1 : st.appendDecommitmentIndex = 1)
    (hr : grRootVal leafs st = some r) :
    grFinalize leafs st = Except.ok ⟨r, st⟩ := by
  rw [grFinalize, if_pos h1, hr]

/-- `getRootBooleans` is its loop followed by the epilogue (the do-block
unfolded). -/
lemma getRootBooleans_run {α : Type} [DecidableEq α] (hashFunction : α → α → α)
    (leafs : List α) (elementCount : Nat) (flags skips : List Bool)
    (ds : List α) :
    getRootBooleans hashFunction leafs elementCount flags skips ds
      = (List.range flags.length).foldlM
          (fun st i =>
            grStep hashFunction leafs ds (flags.getD i false) (skips.getD i false) st)
          (grInitial α leafs.length elementCount)
        >>= fun st => grFinalize leafs st := rfl

/-- A run of the packed-bit loop that raises `'Invalid Proof.'` did so in
the epilogue, from a final state whose cursor is not 1 and whose
accumulated hash differs from the read root. -/
lemma getRootBitsLoop_invalidProof {α : Type} [DecidableEq α]
    (hashFunction : α → α → α) (leafs ds : List α) (fN sN : Nat) :
    ∀ (fuel bitCheck : Nat) (st : MPState α),
      getRootBitsLoop hashFunction leafs ds fN sN fuel bitCheck st
        = Except.error MPErr.invalidProof →
      ∃ st', grFinalize leafs st' = Except.error MPErr.invalidProof
        ∧ st'.appendDecommitmentIndex ≠ 1
        ∧ ∃ h r, st'.accHash = some h ∧ grRootVal leafs st' = some r ∧ h ≠ r := by
  intro fuel
  induction fuel with
  | zero =>
    intro bitCheck st h
    exact absurd h (by simp [getRootBitsLoop])
  | succ fuel ih =>
    intro bitCheck st h
    rw [getRootBitsLoop] at h
    split at h
    · split at h
      · exact ⟨st, h, (grFinalize_invalidProof_iff leafs st).mp h⟩
      · split at h
        · rename_i e heq
          simp only [Except.error.injEq] at h
          subst h
          exact absurd (grStep_error_eq hashFunction leafs ds _ _ st _ heq) (by decide)
        · exact ih _ _ h
    · split at h
      · rename_i e heq
        simp only [Except.error.injEq] at h
        subst h
        exact absurd (grStep_error_eq hashFunction leafs ds _ _ st _ heq) (by decide)
      · exact ih _ _ h

/-- C3 (amended): the cross-check in `getRootBooleans`/`getRootBits` is
guarded by the final value of the `appendDecommitmentIndex` cursor, not by
`bitCount32 elementCount`.  When the loop completes, the run raises
`'Invalid Proof.'` exactly when the cursor did not end at 1 and the
accumulated append-root is a value different from the read root; when the
cursor ends at exactly 1 the cross-check is skipped and the read root is
returned unchecked.  Loop failures themselves are type errors, never the
proof assertion, and a packed-bit run raising the assertion likewise did so
from such a final state. -/
theorem getRoot_crosscheck_characterization {α : Type} [DecidableEq α]
    (hashFunction : α → α → α) (leafs : List α) (elementCount : Nat)
    (flags skips : List Bool) (fN sN : Nat) (ds : List α) :
    (∀ st, (List.range flags.length).foldlM
        (fun st i =>
          grStep hashFunction leafs ds (flags.getD i false) (skips.getD i false) st)
        (grInitial α leafs.length elementCount) = Except.ok st →
      (getRootBooleans hashFunction leafs elementCount flags skips ds
          = Except.error MPErr.invalidProof
        ↔ st.appendDecommitmentIndex ≠ 1
          ∧ ∃ h r, st.accHash = some h ∧ grRootVal leafs st = some r ∧ h ≠ r)
      ∧ (∀ r, st.appendDecommitmentIndex = 1 → grRootVal leafs st = some r →
          getRootBooleans hashFunction leafs elementCount flags skips ds
            = Except.ok ⟨r, st⟩))
    ∧ (∀ e, (List.range flags.length).foldlM
        (fun st i =>
          grStep hashFunction leafs ds (flags.getD i false) (skips.getD i false) st)
        (grInitial α leafs.length elementCount) = Except.error e →
      getRootBooleans hashFunction leafs elementCount flags skips ds
          = Except.error e
        ∧ e ≠ MPErr.invalidProof)
    ∧ (getRootBits hashFunction leafs elementCount fN sN ds
          = Except.error MPErr.invalidProof →
      ∃ st, grFinalize leafs st = Except.error MPErr.invalidProof
        ∧ st.appendDecommitmentIndex ≠ 1
        ∧ ∃ h r, st.accHash = some h ∧ grRootVal leafs st = some r ∧ h ≠ r) := by
  refine ⟨fun st hrun => ?_, fun e hrun => ?_, fun h => ?_⟩
  · rw [getRootBooleans_run, hrun, except_ok_bind]
    exact ⟨grFinalize_invalidProof_iff leafs st,
      fun r h1 hr => grFinalize_cursor_one leafs st r h1 hr⟩
  · rw [getRootBooleans_run, hrun, except_error_bind]
    refine ⟨rfl, ?_⟩
    have := foldlM_grStep_error hashFunction leafs ds flags skips _ _ _ hrun
    subst this
    decide
  · rw [getRootBits] at h
    exact getRootBitsLoop_invalidProof hashFunction leafs ds fN sN 257 1 _ h

/-- Counterexample to C3 as stated: with `elementCount = 3` the
decomposition requires `bitCount32 3 = 2` append-decommitments (more than
one), the accumulated append-root is 5 and the final tree root is 48, yet
the run is accepted with no `InvalidProofError` — the guard reads the
cursor, which ended at 1 because only one record happened, not the
popcount of `elementCount`. -/
theorem getRoot_crosscheck_counterexample :
    bitCount32 3 = 2
    ∧ (getRootBooleans (fun a b => 2 * a + 3 * b + 1) [5, 7] 3
          [false, false] [true, false] [11, 99]).toOption.map
        (fun res =>
          (res.root, res.state.accHash, res.state.appendDecommitmentIndex))
      = some (48, some 5, 1)
    ∧ (5 : Nat) ≠ 48 := by decide

/-- The final loop state of the run witnessing C3's characterization: the
cursor ended at 0 and the accumulated hash 54 differs from the read root
58, so the epilogue raises the proof assertion. -/
def stC3 : MPState Nat :=
  { readIndex := 0
    writeIndex := 0
    decommitmentIndex := 1
    useLeafs := false
    appendNodeIndex := 0
    readIndexOfAppendNode := 0
    appendDecommitmentIndex := 0
    hashes := [some 58]
    appendDecommitments := [some 13, some 9]
    accHash := some 54
    recordCount := 2 }

/-- Witness for C3 at a concrete failing run. -/
theorem getRoot_crosscheck_characterization_witness :
    getRootBooleans (fun a b => 2 * a + 3 * b + 1) [9] 3 [false, false]
        [true, false] [13]
      = Except.error MPErr.invalidProof :=
  ((getRoot_crosscheck_characterization (fun a b => 2 * a + 3 * b + 1) [9] 3
      [false, false] [true, false] 0 0 [13]).1 stC3 (by decide)).1.mpr
    ⟨by decide, 54, 58, by decide, by decide, by decide⟩

/-- Each successful loop iteration preserves
`appendDecommitmentIndex + recordCount` (a record decrements the cursor
and increments the count; no other branch touches either) and the length
of the `appendDecommitments` array (records write via `set`). -/
lemma grStep_bookkeeping {α : Type} (hashFunction : α → α → α) (leafs ds : List α)
    (flag skip : Bool) (st st' : MPState α)
    (h : grStep hashFunction leafs ds flag skip st = Except.ok st') :
    st'.appendDecommitmentIndex + (st'.recordCount : Int)
        = st.appendDecommitmentIndex + st.recordCount
    ∧ st'.appendDecommitments.length = st.appendDecommitments.length := by
  rw [grStep] at h
  dsimp only at h
  split at h
  · simp only [Except.ok.injEq] at h
    subst h
    split
    · constructor
      · dsimp only
        push_cast
        ring
      · simp [List.length_set]
    · exact ⟨rfl, rfl⟩
  · split at h
    · exact absurd h (by simp)
    · rename_i st2 heq
      split at h
      · rename_i lv rv
        simp only [Except.ok.injEq] at h
        subst h
        have h2 : st2.appendDecommitmentIndex + (st2.recordCount : Int)
              = st.appendDecommitmentIndex + st.recordCount
            ∧ st2.appendDecommitments.length = st.appendDecommitments.length := by
          split at heq
          · split at heq
            · split at heq
              · simp only [Except.ok.injEq] at heq
                subst heq
                constructor
                · dsimp only
                  push_cast
                  ring
                · simp [List.length_set]
              · exact absurd heq (by simp)
            · simp only [Except.ok.injEq] at heq
              subst heq
              exact ⟨rfl, rfl⟩
          · simp only [Except.ok.injEq] at heq
            subst heq
            exact ⟨rfl, rfl⟩
        exact h2
      · exact absurd h (by simp)

/-- Bookkeeping preservation through the boolean-array loop. -/
lemma foldlM_grStep_bookkeeping {α : Type} (hashFunction : α → α → α)
    (leafs ds : List α) (flags skips : List Bool) :
    ∀ (l : List Nat) (st st' : MPState α),
      l.foldlM
        (fun st i =>
          grStep hashFunction leafs ds (flags.getD i false) (skips.getD i false) st) st
        = Except.ok st' →
      st'.appendDecommitmentIndex + (st'.recordCount : Int)
          = st.appendDecommitmentIndex + st.recordCount
      ∧ st'.appendDecommitments.length = st.appendDecommitments.length := by
  intro l
  induction l with
  | nil =>
    intro st st' h
    have : st = st' := by
      simpa [List.foldlM_nil, pure, Except.pure] using h
    subst this
    exact ⟨rfl, rfl⟩
  | cons a rest ih =>
    intro st st' h
    rw [List.foldlM_cons] at h
    cases hstep : grStep hashFunction leafs ds (flags.getD a false) (skips.getD a false) st with
    | error e =>
      rw [hstep, except_error_bind] at h
      exact absurd h (by simp)
    | ok st1 =>
      rw [hstep, except_ok_bind] at h
      have h1 := grStep_bookkeeping hashFunction leafs ds _ _ st st1 hstep
      have h2 := ih st1 st' h
      exact ⟨by rw [h2.1, h1.1], by rw [h2.2, h1.2]⟩

/-- The epilogue returns the loop's final state unchanged. -/
lemma grFinalize_state {α : Type} [DecidableEq α] (leafs : List α)
    (st : MPState α) (res : MPRootResult α)
    (h : grFinalize leafs st = Except.ok res) : res.state = st := by
  rw [grFinalize] at h
  split at h
  · split at h
    · simp only [Except.ok.injEq] at h
      rw [← h]
    · exact absurd h (by simp)
  · split at h
    · split at h
      · simp only [Except.ok.injEq] at h
        rw [← h]
      · exact absurd h (by simp)
    · exact absurd h (by simp)

/-- Bookkeeping preservation through the packed-bit loop, down to the
returned result's state. -/
lemma getRootBitsLoop_bookkeeping {α : Type} [DecidableEq α]
    (hashFunction : α → α → α) (leafs ds : List α) (fN sN : Nat) :
    ∀ (fuel bitCheck : Nat) (st : MPState α) (res : MPRootResult α),
      getRootBitsLoop hashFunction leafs ds fN sN fuel bitCheck st
        = Except.ok res →
      res.state.appendDecommitmentIndex + (res.state.recordCount : Int)
          = st.appendDecommitmentIndex + st.recordCount
      ∧ res.state.appendDecommitments.length = st.appendDecommitments.length := by
  intro fuel
  induction fuel with
  | zero =>
    intro bitCheck st res h
    exact absurd h (by simp [getRootBitsLoop])
  | succ fuel ih =>
    intro bitCheck st res h
    rw [getRootBitsLoop] at h
    split at h
    · split at h
      · rw [grFinalize_state leafs st res h]
        exact ⟨rfl, rfl⟩
      · split at h
        · exact absurd h (by simp)
        · rename_i st1 heq
          have h1 := grStep_bookkeeping hashFunction leafs ds _ _ st st1 heq
          have h2 := ih _ _ _ h
          exact ⟨by rw [h2.1, h1.1], by rw [h2.2, h1.2]⟩
    · split at h
      · exact absurd h (by simp)
      · rename_i st1 heq
        have h1 := grStep_bookkeeping hashFunction leafs ds _ _ st st1 heq
        have h2 := ih _ _ _ h
        exact ⟨by rw [h2.1, h1.1], by rw [h2.2, h1.2]⟩

/-- C4 (amended): the `appendDecommitments` array is allocated with length
`bitCount32 elementCount` and that length never changes, and on every
accepted run the final cursor equals `bitCount32 elementCount` minus the
number of append-decommitments recorded.  The number recorded therefore
equals `bitCount32 elementCount` only when the cursor reaches 0; the
epilogue also accepts runs whose cursor ends at 1, which recorded one
fewer. -/
theorem getRoot_appendDecommitment_bookkeeping {α : Type} [DecidableEq α]
    (hashFunction : α → α → α) (leafs : List α) (elementCount : Nat)
    (flags skips : List Bool) (fN sN : Nat) (ds : List α) :
    (∀ res, getRootBooleans hashFunction leafs elementCount flags skips ds
        = Except.ok res →
      res.state.appendDecommitmentIndex + (res.state.recordCount : Int)
          = bitCount32 elementCount
      ∧ res.state.appendDecommitments.length = bitCount32 elementCount)
    ∧ (∀ res, getRootBits hashFunction leafs elementCount fN sN ds
        = Except.ok res →
      res.state.appendDecommitmentIndex + (res.state.recordCount : Int)
          = bitCount32 elementCount
      ∧ res.state.appendDecommitments.length = bitCount32 elementCount) := by
  constructor
  · intro res h
    rw [getRootBooleans_run] at h
    cases hrun : (List.range flags.length).foldlM
        (fun st i =>
          grStep hashFunction leafs ds (flags.getD i false) (skips.getD i false) st)
        (grInitial α leafs.length elementCount) with
    | error e =>
      rw [hrun, except_error_bind] at h
      exact absurd h (by simp)
    | ok st =>
      rw [hrun, except_ok_bind] at h
      have hb := foldlM_grStep_bookkeeping hashFunction leafs ds flags skips _ _ _ hrun
      rw [grFinalize_state leafs st res h]
      simp only [grInitial, List.length_replicate] at hb
      exact ⟨by rw [hb.1]; ring, hb.2⟩
  · intro res h
    rw [getRootBits] at h
    have hb := getRootBitsLoop_bookkeeping hashFunction leafs ds fN sN 257 1 _ _ h
    simp only [grInitial, List.length_replicate] at hb
    exact ⟨by rw [hb.1]; ring, hb.2⟩

/-- Counterexample to C4 as stated: with `elementCount = 1` (popcount 1)
and an empty proof, `getRootBooleans` accepts and returns the single leaf,
but the run recorded zero append-decommitments, not `bitCount32 1 = 1`:
the cursor ends at 1, not 0, and the array keeps its unfilled slot. -/
theorem getRoot_appendDecommitment_count_counterexample :
    (getRootBooleans (fun a b => 2 * a + 3 * b + 1) [5] 1 [] [] []).toOption.map
        (fun res =>
          (res.root, res.state.recordCount, res.state.appendDecommitmentIndex,
           res.state.appendDecommitments))
      = some (5, 0, 1, [none])
    ∧ bitCount32 1 = 1 := by decide

/-- The final loop state of the accepted run witnessing C4's bookkeeping:
two records against `bitCount32 3 = 2` slots, cursor at 0. -/
def stC4 : MPState Nat :=
  { readIndex := 0
    writeIndex := 0
    decommitmentIndex := 1
    useLeafs := false
    appendNodeIndex := 0
    readIndexOfAppendNode := 0
    appendDecommitmentIndex := 0
    hashes := [some 58]
    appendDecommitments := [some 13, some 9]
    accHash := some 58
    recordCount := 2 }

/-- Witness for C4 at a concrete accepted run. -/
theorem getRoot_appendDecommitment_bookkeeping_witness :
    stC4.appendDecommitmentIndex + (stC4.recordCount : Int) = bitCount32 3
    ∧ stC4.appendDecommitments.length = bitCount32 3 :=
  (getRoot_appendDecommitment_bookkeeping
      (fun a b => if a ≤ b then 2 * a + 3 * b + 1 else 2 * b + 3 * a + 1)
      [9] 3 [false, false] [true, false] 0 0 [13]).1
    ⟨58, stC4⟩ (by decide)

/-! ### Claim C6: `getMinimumIndex` -/

/-- The loop of `getMinimumIndex` on `m * 2 ^ k` with `m` odd shifts right
`k` times and then returns the masked-and-shifted value. -/
lemma getMinimumIndexGo_spec :
    ∀ (k fuel shifts m : Nat), m % 2 = 1 → m * 2 ^ k < 2 ^ 32 → k < fuel →
      getMinimumIndexGo fuel shifts (m * 2 ^ k)
        = some (toInt32 ((Nat.land m 0xfffffffe <<< (shifts + k)) % 2 ^ 32)) := by
  intro k
  induction k with
  | zero =>
    intro fuel shifts m hm _ hfuel
    match fuel, hfuel with
    | fuel + 1, _ =>
      rw [getMinimumIndexGo]
      simp only [pow_zero, Nat.mul_one, Nat.add_zero]
      rw [if_pos hm]
  | succ k ih =>
    intro fuel shifts m hm hlt hfuel
    match fuel, hfuel with
    | fuel + 1, hfuel =>
      have htwo : m * 2 ^ (k + 1) = 2 * (m * 2 ^ k) := by ring
      rw [getMinimumIndexGo]
      rw [if_neg (by omega)]
      rw [Nat.mod_eq_of_lt hlt, Nat.shiftRight_one, htwo,
        Nat.mul_div_cancel_left _ (by norm_num)]
      have hshift : shifts + 1 + k = shifts + (k + 1) := by omega
      rw [← hshift]
      exact ih fuel (shifts + 1) m hm (by omega) (by omega)

/-- `m & 0xfffffffe` clears the low bit: for odd 32-bit `m` it is
`m - 1`. -/
lemma land_mask_of_odd (m : Nat) (hm : m % 2 = 1) (hlt : m < 2 ^ 32) :
    Nat.land m 0xfffffffe = m - 1 := by
  obtain ⟨t, rfl⟩ : ∃ t, m = 2 * t + 1 := ⟨m / 2, by omega⟩
  have ht : t < 2 ^ 31 := by omega
  have hsub : 2 * t + 1 - 1 = 2 * t := by omega
  rw [hsub]
  show (2 * t + 1) &&& 0xfffffffe = 2 * t
  apply Nat.eq_of_testBit_eq
  intro i
  cases i with
  | zero =>
    rw [Nat.testBit_land, Nat.testBit_zero, Nat.testBit_zero, Nat.testBit_zero]
    have h1 : (2 * t + 1) % 2 = 1 := by omega
    have h2 : (2 * t) % 2 = 0 := by omega
    simp [h1, h2]
  | succ i =>
    rw [Nat.testBit_land, Nat.testBit_succ, Nat.testBit_succ, Nat.testBit_succ]
    have h1 : (2 * t + 1) / 2 = t := by omega
    have h2 : (2 * t) / 2 = t := by omega
    have h3 : (0xfffffffe : Nat) / 2 = 2 ^ 31 - 1 := by norm_num
    rw [h1, h2, h3, Nat.testBit_two_pow_sub_one]
    by_cases hi : i < 31
    · simp [hi]
    · have hbit : t.testBit i = false := by
        apply Nat.testBit_lt_two_pow
        calc t < 2 ^ 31 := ht
          _ ≤ 2 ^ i := Nat.pow_le_pow_right (by norm_num) (by omega)
      simp [hbit]

/-- C6 (amended): on the range where the 32-bit *signed* left shift cannot
overflow — `elementCount = m * 2 ^ k` with `m` odd and
`elementCount < 2 ^ 31` — `getMinimumIndex` returns `elementCount` with
its lowest set bit cleared, i.e. `(m - 1) * 2 ^ k`, which is strictly less
than `elementCount`; and `getMinimumIndex 0b1011 = some 0b1010`.  The
function is *not* total on `[0, 2 ^ 32)`: it is `undefined` at 0 and wraps
to a negative value when the cleared value reaches `2 ^ 31` (see the
counterexample). -/
theorem getMinimumIndex_clears_lowest_bit (m k : Nat) (hm : m % 2 = 1)
    (hlt : m * 2 ^ k < 2 ^ 31) :
    getMinimumIndex (m * 2 ^ k) = some ((((m - 1) * 2 ^ k : Nat)) : Int)
    ∧ (m - 1) * 2 ^ k < m * 2 ^ k
    ∧ getMinimumIndex 11 = some 10 := by
  have hm1 : 0 < m := by omega
  have hlt32 : m * 2 ^ k < 2 ^ 32 := by
    calc m * 2 ^ k < 2 ^ 31 := hlt
      _ < 2 ^ 32 := by norm_num
  have hk : k < 32 := by
    have h1 : 2 ^ k ≤ m * 2 ^ k := Nat.le_mul_of_pos_left (2 ^ k) hm1
    have h2 : 2 ^ k < 2 ^ 32 := by omega
    exact (Nat.pow_lt_pow_iff_right (by norm_num)).mp h2
  have hmlt : m < 2 ^ 32 := by
    have h1 : m ≤ m * 2 ^ k := Nat.le_mul_of_pos_right m (by positivity)
    omega
  refine ⟨?_, ?_, by decide⟩
  · rw [getMinimumIndex, Nat.mod_eq_of_lt hlt32,
      getMinimumIndexGo_spec k 32 0 m hm hlt32 hk,
      land_mask_of_odd m hm hmlt, Nat.zero_add, Nat.shiftLeft_eq]
    have hsm : (m - 1) * 2 ^ k < 2 ^ 31 := by
      have : (m - 1) * 2 ^ k ≤ m * 2 ^ k :=
        Nat.mul_le_mul_right _ (by omega)
      omega
    rw [Nat.mod_eq_of_lt (by omega)]
    rw [toInt32, Nat.mod_eq_of_lt (by omega)]
    rw [if_pos (by omega)]
  · exact (Nat.mul_lt_mul_right (Nat.two_pow_pos k)).mpr (by omega)

/-- Counterexample to C6 as stated: `getMinimumIndex` is not total on
`[0, 2 ^ 32)` — at 0 the loop falls through and returns `undefined` — and
at `2 ^ 31 + 1` the signed shift makes the result the negative
`-2 ^ 31`, not `2 ^ 31` (the lowest-bit-cleared value). -/
theorem getMinimumIndex_counterexample :
    getMinimumIndex 0 = none
    ∧ getMinimumIndex (2 ^ 31 + 1) = some (-(2 ^ 31))
    ∧ (2 ^ 31 + 1 : Nat) < 2 ^ 32 := by decide

/-- Witness for C6 at `elementCount = 5 * 2 = 0b1010`. -/
theorem getMinimumIndex_clears_lowest_bit_witness :
    getMinimumIndex (5 * 2 ^ 1) = some ((((5 - 1) * 2 ^ 1 : Nat)) : Int)
    ∧ (5 - 1) * 2 ^ 1 < 5 * 2 ^ 1
    ∧ getMinimumIndex 11 = some 10 :=
  getMinimumIndex_clears_lowest_bit 5 1 (by decide) (by decide)

/-! ### Claim C8: `to32ByteBuffer` -/

/-- The number a hex string denotes when folded left-to-right starting
from `a` (the accumulator view of both the rendering and the decoding). -/
def hexStrVal (a : Nat) (s : List Char) : Nat :=
  s.foldl (fun acc c => 16 * acc + (hexVal c).getD 0) a

lemma hexStrVal_append (a : Nat) (s t : List Char) :
    hexStrVal a (s ++ t) = hexStrVal (hexStrVal a s) t := by
  simp [hexStrVal, List.foldl_append]

lemma hexStrVal_replicate_zero : ∀ m, hexStrVal 0 (List.replicate m '0') = 0 := by
  intro m
  induction m with
  | zero => rfl
  | succ m ih => simpa [List.replicate_succ, hexStrVal] using ih

lemma hexVal_hexDigitChar (d : Nat) (hd : d < 16) :
    hexVal (hexDigitChar d) = some d := by
  interval_cases d <;> decide

lemma hexVal_lt (c : Char) (v : Nat) (h : hexVal c = some v) : v < 16 := by
  by_cases h0 : c = '0'
  · subst h0; injection h with h; omega
  by_cases h1 : c = '1'
  · subst h1; injection h with h; omega
  by_cases h2 : c = '2'
  · subst h2; injection h with h; omega
  by_cases h3 : c = '3'
  · subst h3; injection h with h; omega
  by_cases h4 : c = '4'
  · subst h4; injection h with h; omega
  by_cases h5 : c = '5'
  · subst h5; injection h with h; omega
  by_cases h6 : c = '6'
  · subst h6; injection h with h; omega
  by_cases h7 : c = '7'
  · subst h7; injection h with h; omega
  by_cases h8 : c = '8'
  · subst h8; injection h with h; omega
  by_cases h9 : c = '9'
  · subst h9; injection h with h; omega
  by_cases ha : c = 'a'
  · subst ha; injection h with h; omega
  by_cases hb : c = 'b'
  · subst hb; injection h with h; omega
  by_cases hc : c = 'c'
  · subst hc; injection h with h; omega
  by_cases hd : c = 'd'
  · subst hd; injection h with h; omega
  by_cases he : c = 'e'
  · subst he; injection h with h; omega
  by_cases hf : c = 'f'
  · subst hf; injection h with h; omega
  rw [hexVal, if_neg h0, if_neg h1, if_neg h2, if_neg h3, if_neg h4, if_neg h5,
    if_neg h6, if_neg h7, if_neg h8, if_neg h9, if_neg ha, if_neg hb, if_neg hc,
    if_neg hd, if_neg he, if_neg hf] at h
  exact absurd h (by simp)

/-- The `while` loop of `leftPad` prepends `size - s.length` copies of the
pad character (any fuel at least that many steps). -/
lemma leftPadGo_eq :
    ∀ (fuel : Nat) (s : List Char) (size : Nat) (c : Char),
      size - s.length ≤ fuel →
      leftPadGo fuel s size c = List.replicate (size - s.length) c ++ s := by
  intro fuel
  induction fuel with
  | zero =>
    intro s size c h
    have h0 : size - s.length = 0 := by omega
    rw [leftPadGo, h0]
    rfl
  | succ fuel ih =>
    intro s size c h
    rw [leftPadGo]
    split
    · rename_i hlt
      rw [ih (c :: s) size c (by simp only [List.length_cons]; omega)]
      have hstep : size - s.length = (size - (c :: s).length) + 1 := by
        simp only [List.length_cons]
        omega
      rw [hstep, List.replicate_succ', List.append_assoc, List.singleton_append]
    · rename_i hge
      have h0 : size - s.length = 0 := by omega
      rw [h0]
      rfl

lemma natToHexAux_append :
    ∀ (fuel n : Nat) (acc : List Char),
      natToHexAux fuel n acc = natToHexAux fuel n [] ++ acc := by
  intro fuel
  induction fuel with
  | zero => intro n acc; rfl
  | succ fuel ih =>
    intro n acc
    rw [natToHexAux, natToHexAux]
    by_cases h0 : n = 0
    · rw [if_pos h0, if_pos h0]
      rfl
    · rw [if_neg h0, if_neg h0, ih (n / 16) (hexDigitChar (n % 16) :: acc),
        ih (n / 16) [hexDigitChar (n % 16)], List.append_assoc,
        List.singleton_append]

/-- The digit list produced by `natToHexAux` is made of hex digits, folds
back to the rendered number, and has at most `L` digits whenever
`n < 16 ^ L` — provided the fuel covers `n`, which `natToHex` arranges. -/
lemma natToHexAux_spec :
    ∀ (fuel n : Nat), n ≤ fuel →
      (∀ c ∈ natToHexAux fuel n [], (hexVal c).isSome = true)
      ∧ (∀ a, hexStrVal a (natToHexAux fuel n [])
          = a * 16 ^ (natToHexAux fuel n []).length + n)
      ∧ (∀ L, n < 16 ^ L → (natToHexAux fuel n []).length ≤ L) := by
  intro fuel
  induction fuel with
  | zero =>
    intro n hn
    have h0 : n = 0 := by omega
    subst h0
    refine ⟨?_, ?_, ?_⟩
    · intro c hc
      simp [natToHexAux] at hc
    · intro a
      simp [natToHexAux, hexStrVal]
    · intro L _
      simp [natToHexAux]
  | succ fuel ih =>
    intro n hn
    by_cases h0 : n = 0
    · subst h0
      rw [natToHexAux, if_pos rfl]
      refine ⟨?_, ?_, ?_⟩
      · intro c hc
        simp at hc
      · intro a
        simp [hexStrVal]
      · intro L _
        simp
    · rw [natToHexAux, if_neg h0,
        natToHexAux_append fuel (n / 16) [hexDigitChar (n % 16)]]
      obtain ⟨ihHex, ihVal, ihLen⟩ := ih (n / 16) (by omega)
      have hd : hexVal (hexDigitChar (n % 16)) = some (n % 16) :=
        hexVal_hexDigitChar (n % 16) (by omega)
      refine ⟨?_, ?_, ?_⟩
      · intro c hc
        rcases List.mem_append.mp hc with h | h
        · exact ihHex c h
        · rw [List.mem_singleton.mp h, hd]
          rfl
      · intro a
        rw [hexStrVal_append, ihVal a]
        simp only [hexStrVal, List.foldl_cons, List.foldl_nil, hd,
          Option.getD_some, List.length_append, List.length_singleton]
        rw [pow_succ]
        have hdm : n % 16 < 16 := by omega
        have hdiv : 16 * (n / 16) + n % 16 = n := by omega
        set P := 16 ^ (natToHexAux fuel (n / 16) []).length
        ring_nf
        omega
      · intro L hL
        have hL1 : 1 ≤ L := by
          by_contra hc
          have : L = 0 := by omega
          subst this
          simp at hL
          omega
        have hdiv : n / 16 < 16 ^ (L - 1) := by
          rw [Nat.div_lt_iff_lt_mul (by norm_num)]
          calc n < 16 ^ L := hL
            _ = 16 ^ (L - 1) * 16 := by
              rw [← pow_succ]
              congr 1
              omega
        have := ihLen (L - 1) hdiv
        simp only [List.length_append, List.length_singleton]
        omega

/-- `natToHex` of a value under `16 ^ 64` is a nonempty hex string of at
most 64 digits denoting that value. -/
lemma natToHex_spec (n : Nat) (hn : n < 16 ^ 64) :
    (∀ c ∈ natToHex n, (hexVal c).isSome = true)
    ∧ hexStrVal 0 (natToHex n) = n
    ∧ (natToHex n).length ≤ 64 := by
  rw [natToHex]
  by_cases h0 : n = 0
  · subst h0
    rw [if_pos rfl]
    exact ⟨by intro c hc; rw [List.mem_singleton.mp hc]; rfl, by decide,
      by norm_num⟩
  · rw [if_neg h0]
    obtain ⟨hHex, hVal, hLen⟩ := natToHexAux_spec n n le_rfl
    exact ⟨hHex, by rw [hVal 0]; ring, hLen 64 hn⟩

/-- Node `'hex'` decoding of an even-length all-hex-digit string: one byte
per pair, each below 256, and the byte fold recovers the digit fold. -/
lemma hexDecodePairs_spec :
    ∀ (k : Nat) (s : List Char),
      (∀ c ∈ s, (hexVal c).isSome = true) → s.length = 2 * k →
      (hexDecodePairs s).length = k
      ∧ (∀ b ∈ hexDecodePairs s, b < 256)
      ∧ ∀ a, (hexDecodePairs s).foldl (fun acc b => 256 * acc + b) a
          = hexStrVal a s := by
  intro k
  induction k with
  | zero =>
    intro s _ hlen
    have h0 : s = [] := List.length_eq_zero.mp (by omega)
    subst h0
    refine ⟨rfl, ?_, ?_⟩
    · intro b hb
      simp [hexDecodePairs] at hb
    · intro a
      rfl
  | succ k ih =>
    intro s hhex hlen
    match s, hlen with
    | c1 :: c2 :: rest, hlen =>
      obtain ⟨h, hh⟩ := Option.isSome_iff_exists.mp (hhex c1 (by simp))
      obtain ⟨l, hl⟩ := Option.isSome_iff_exists.mp (hhex c2 (by simp))
      have hresthex : ∀ c ∈ rest, (hexVal c).isSome = true := by
        intro c hc
        exact hhex c (by simp [hc])
      have hrestlen : rest.length = 2 * k := by
        simp only [List.length_cons] at hlen
        omega
      obtain ⟨ihLen, ihBound, ihVal⟩ := ih rest hresthex hrestlen
      rw [hexDecodePairs, hh, hl]
      refine ⟨by simp [ihLen], ?_, ?_⟩
      · intro b hb
        rcases List.mem_cons.mp hb with h1 | h1
        · have := hexVal_lt c1 h hh
          have := hexVal_lt c2 l hl
          omega
        · exact ihBound b h1
      · intro a
        rw [List.foldl_cons, ihVal]
        simp only [hexStrVal, List.foldl_cons, hh, hl, Option.getD_some]
        have harith : 16 * (16 * a + h) + l = 256 * a + (16 * h + l) := by
          ring
        rw [harith]

/-- C8 (amended): `to32ByteBuffer` never throws; for every `n` with
`0 ≤ n < 2 ^ 256` it returns the fixed 32-byte big-endian encoding of `n`
(32 bytes, each below 256, decoding back to `n`).  Out-of-range inputs are
*not* rejected with a `DomainError`: the hex string is silently
mis-decoded (see the counterexample). -/
theorem to32ByteBuffer_encodes (n : Nat) (hn : n < 2 ^ 256) :
    (to32ByteBuffer (n : Int)).length = 32
    ∧ (∀ b ∈ to32ByteBuffer (n : Int), b < 256)
    ∧ beBytesVal (to32ByteBuffer (n : Int)) = n := by
  have hpow : (16 : Nat) ^ 64 = 2 ^ 256 := by norm_num
  have h16 : n < 16 ^ 64 := by rw [hpow]; exact hn
  have hnum : numToHex (n : Int) = natToHex n := by
    rw [numToHex, if_neg (by omega)]
    congr 1
  obtain ⟨hhex, hval, hlen⟩ := natToHex_spec n h16
  have hpad : leftPad (natToHex n) 64 '0'
      = List.replicate (64 - (natToHex n).length) '0' ++ natToHex n :=
    leftPadGo_eq 64 (natToHex n) 64 '0' (by omega)
  have hpadlen : (leftPad (natToHex n) 64 '0').length = 64 := by
    rw [hpad]
    simp only [List.length_append, List.length_replicate]
    omega
  have hpadhex : ∀ c ∈ leftPad (natToHex n) 64 '0', (hexVal c).isSome = true := by
    rw [hpad]
    intro c hc
    rcases List.mem_append.mp hc with h | h
    · rw [List.eq_of_mem_replicate h]
      rfl
    · exact hhex c h
  have hpadval : hexStrVal 0 (leftPad (natToHex n) 64 '0') = n := by
    rw [hpad, hexStrVal_append, hexStrVal_replicate_zero, hval]
  obtain ⟨hL, hB, hV⟩ :=
    hexDecodePairs_spec 32 (leftPad (natToHex n) 64 '0') hpadhex
      (by rw [hpadlen])
  have hbuf : to32ByteBuffer (n : Int)
      = hexDecodePairs (leftPad (natToHex n) 64 '0') := by
    rw [to32ByteBuffer, hnum]
  rw [hbuf]
  exact ⟨hL, hB, by rw [beBytesVal, hV 0, hpadval]⟩

set_option maxRecDepth 4000 in
/-- Counterexample to C8 as stated: `to32ByteBuffer` raises no
`DomainError` on out-of-range input.  At `-1` the padded string
`"00...0-1"` stops decoding at the `'-'` pair, yielding a 31-byte buffer
of zeros; at `2 ^ 256` the 65-digit hex string is not padded, the trailing
digit is dropped, and the buffer decodes to `2 ^ 252`, not `2 ^ 256`. -/
theorem to32ByteBuffer_counterexample :
    to32ByteBuffer (-1) = List.replicate 31 0
    ∧ (to32ByteBuffer (2 ^ 256)).length = 32
    ∧ beBytesVal (to32ByteBuffer (2 ^ 256)) = 2 ^ 252
    ∧ (2 ^ 252 : Nat) ≠ 2 ^ 256 := by decide

/-- Witness for C8 at `n = 3`. -/
theorem to32ByteBuffer_encodes_witness :
    (to32ByteBuffer ((3 : Nat) : Int)).length = 32
    ∧ (∀ b ∈ to32ByteBuffer ((3 : Nat) : Int), b < 256)
    ∧ beBytesVal (to32ByteBuffer ((3 : Nat) : Int)) = 3 :=
  to32ByteBuffer_encodes 3 (by norm_num)

/-! ## The combined update-and-append decoders (`getNewRootBooleans` /
`getNewRootBits`)

Pass 1 is the `getRootBooleans` body run in lockstep over the original
(`leafs`/`hashes`) and replacement (`updateLeafs`/`newHashes`) values: the
old values feed the root computation and the proof cross-check, the new
values feed the recorded append-decommitments.  The state is the
`getRootBooleans` state plus the parallel `newHashes` queue (allocated
with length `max(leafCount, (appendLeafs.length >>> 1) + 1)`).

Pass 2 (`apLoop` below) is the `AppendProof.getNewRootMulti` loop
rebuilding `newHashes` bottom-up from `appendLeafs` and the recorded
append-decommitments; its `while (upperBound > 0)` is fueled (the fuel
passed by the wrappers is generous; each iteration either advances
`index` or halves `upperBound`).  `upperBound` and the append cursor are
JavaScript numbers that can go negative, hence `Int`.

The returned object is `{ root: Buffer.from(oldRoot), newRoot:
newHashes[0] }`: `root` crashes on an `undefined` old root
(`MPErr.typeError`), `newRoot` is returned raw — `null` and `undefined`
both map to `none` here. -/

structure GNState (α : Type) where
  base : MPState α
  newHashes : List (Option α)
deriving DecidableEq, Repr

def toGN {α : Type} (st : MPState α) : GNState α :=
  { base := st, newHashes := st.hashes }

def gnrInitial (α : Type) (leafCount appendLeafCount elementCount : Nat) :
    GNState α :=
  { base := grInitial α leafCount elementCount
    newHashes := List.replicate (max leafCount (appendLeafCount / 2 + 1)) none }

/-- One iteration of pass 1 of `getNewRootBooleans`/`getNewRootBits` (the
`getRootBooleans` body doubled over old and new values; the source
duplicates the text in both functions). -/
def gnrStep {α : Type} (hashFunction : α → α → α)
    (leafs updateLeafs decommitments : List α) (flag skip : Bool)
    (st : GNState α) : Except MPErr (GNState α) :=
  let leafCount := leafs.length
  if skip then
    let skippedHash : Option α :=
      if st.base.useLeafs then leafs.get? st.base.readIndex
      else st.base.hashes.getD st.base.readIndex none
    let newSkippedHash : Option α :=
      if st.base.useLeafs then updateLeafs.get? st.base.readIndex
      else st.newHashes.getD st.base.readIndex none
    let readIndex := st.base.readIndex + 1
    let b :=
      if st.base.appendNodeIndex % 2 = 1 then
        { st.base with
          appendDecommitments :=
            st.base.appendDecommitments.set
              (st.base.appendDecommitmentIndex - 1).toNat newSkippedHash
          appendDecommitmentIndex := st.base.appendDecommitmentIndex - 1
          accHash := skippedHash
          recordCount := st.base.recordCount + 1 }
      else st.base
    let b := { b with readIndexOfAppendNode := b.writeIndex
                      appendNodeIndex := b.appendNodeIndex / 2 }
    let hashes := b.hashes.set b.writeIndex skippedHash
    let newHashes := st.newHashes.set b.writeIndex newSkippedHash
    let writeIndex := b.writeIndex + 1
    let useLeafs := if b.useLeafs && readIndex = leafCount then false else b.useLeafs
    Except.ok { base := { b with hashes := hashes
                                 writeIndex := writeIndex % leafCount
                                 readIndex := readIndex % leafCount
                                 useLeafs := useLeafs }
                newHashes := newHashes }
  else
    let nextReadIndex := (st.base.readIndex + 1) % leafCount
    let appendHash : Option α :=
      if flag then
        (if st.base.useLeafs then leafs.get? nextReadIndex
         else st.base.hashes.getD nextReadIndex none)
      else decommitments.get? st.base.decommitmentIndex
    let newAppendHash : Option α :=
      if flag then
        (if st.base.useLeafs then updateLeafs.get? nextReadIndex
         else st.newHashes.getD nextReadIndex none)
      else decommitments.get? st.base.decommitmentIndex
    let boundary : Except MPErr (MPState α) :=
      if st.base.readIndexOfAppendNode = st.base.readIndex then
        if st.base.appendNodeIndex % 2 = 1 then
          match appendHash, st.base.accHash with
          | some a, some h =>
            Except.ok { st.base with
              appendDecommitments :=
                st.base.appendDecommitments.set
                  (st.base.appendDecommitmentIndex - 1).toNat newAppendHash
              appendDecommitmentIndex := st.base.appendDecommitmentIndex - 1
              accHash := some (hashFunction a h)
              recordCount := st.base.recordCount + 1
              readIndexOfAppendNode := st.base.writeIndex
              appendNodeIndex := st.base.appendNodeIndex / 2 }
          | _, _ => Except.error MPErr.typeError
        else
          Except.ok { st.base with readIndexOfAppendNode := st.base.writeIndex
                                   appendNodeIndex := st.base.appendNodeIndex / 2 }
      else Except.ok st.base
    match boundary with
    | Except.error e => Except.error e
    | Except.ok b =>
      let readDec :=
        if flag then
          ((if b.useLeafs then leafs.get? b.readIndex
            else b.hashes.getD b.readIndex none),
           b.readIndex + 1, b.decommitmentIndex)
        else
          (decommitments.get? b.decommitmentIndex, b.readIndex,
           b.decommitmentIndex + 1)
      let newRight : Option α :=
        if flag then
          (if b.useLeafs then updateLeafs.get? b.readIndex
           else st.newHashes.getD b.readIndex none)
        else decommitments.get? b.decommitmentIndex
      let right : Option α := readDec.1
      let readIndex := readDec.2.1 % leafCount
      let decommitmentIndex := readDec.2.2
      let left : Option α :=
        if b.useLeafs then leafs.get? readIndex else b.hashes.getD readIndex none
      let newLeft : Option α :=
        if b.useLeafs then updateLeafs.get? readIndex
        else st.newHashes.getD readIndex none
      let readIndex := readIndex + 1
      match left, right with
      | some lv, some rv =>
        match newLeft, newRight with
        | some nlv, some nrv =>
          let hashes := b.hashes.set b.writeIndex (some (hashFunction lv rv))
          let newHashes := st.newHashes.set b.writeIndex (some (hashFunction nlv nrv))
          let writeIndex := b.writeIndex + 1
          let useLeafs := if b.useLeafs && readIndex = leafCount then false else b.useLeafs
          Except.ok { base := { b with hashes := hashes
                                       writeIndex := writeIndex % leafCount
                                       readIndex := readIndex % leafCount
                                       decommitmentIndex := decommitmentIndex
                                       useLeafs := useLeafs }
                      newHashes := newHashes }
        | _, _ => Except.error MPErr.typeError
      | _, _ => Except.error MPErr.typeError

/-- The new-value root read at the end of pass 1 (same selector as
`grRootVal`, over `updateLeafs`/`newHashes`; the index arithmetic still
uses the *original* leaf count). -/
def gnrNewRootVal {α : Type} (leafCount : Nat) (updateLeafs : List α)
    (st : GNState α) : Option α :=
  if st.base.useLeafs then updateLeafs.get? 0
  else st.newHashes.getD
    ((if st.base.writeIndex = 0 then leafCount else st.base.writeIndex) - 1) none

/-- The epilogue of pass 1: the `'Invalid Proof.'` assertion against the
*old* root, then `appendDecommitments[0] = newRoot` when the cursor ended
at 1.  Returns the old root, the new root and the append-decommitment
array handed to pass 2. -/
def gnrFinalize {α : Type} [DecidableEq α] (leafs updateLeafs : List α)
    (st : GNState α) :
    Except MPErr (Option α × Option α × List (Option α)) :=
  let oldRoot := grRootVal leafs st.base
  let newRoot := gnrNewRootVal leafs.length updateLeafs st
  if st.base.appendDecommitmentIndex = 1 then
    Except.ok (oldRoot, newRoot, st.base.appendDecommitments.set 0 newRoot)
  else
    match st.base.accHash, oldRoot with
    | some h, some r =>
      if h = r then Except.ok (oldRoot, newRoot, st.base.appendDecommitments)
      else Except.error MPErr.invalidProof
    | _, _ => Except.error MPErr.typeError

structure ApState (α : Type) where
  writeIndex : Nat
  readIndex : Nat
  upperBound : Int
  offset : Nat
  index : Nat
  appendDecommitmentIndex : Int
  newHashes : List (Option α)
  appendDecommitments : List (Option α)
deriving DecidableEq, Repr

/-- The `while (upperBound > 0)` append loop shared by
`getNewRootBooleans` and `getNewRootBits`, returning the final
`newHashes`.  A negative append-decommitment cursor reads `undefined`. -/
def apLoop {α : Type} (hashFunction : α → α → α) (elementCount : Nat)
    (appendLeafs : List α) : Nat → ApState α → Except MPErr (List (Option α))
  | 0, _ => Except.error MPErr.outOfFuel
  | fuel + 1, s =>
    if s.upperBound > 0 then
      let useLeafs := decide (s.offset ≥ elementCount)
      let step1 : Except MPErr (ApState α) :=
        if s.writeIndex = 0 ∧ s.index % 2 = 1 then
          let dec : Option α :=
            if s.appendDecommitmentIndex < 0 then none
            else s.appendDecommitments.getD s.appendDecommitmentIndex.toNat none
          let operand : Option α :=
            if useLeafs then appendLeafs.get? s.readIndex
            else s.newHashes.getD s.readIndex none
          match dec, operand with
          | some a, some b =>
            Except.ok { s with
              newHashes := s.newHashes.set s.writeIndex (some (hashFunction a b))
              writeIndex := s.writeIndex + 1
              readIndex := s.readIndex + 1
              appendDecommitmentIndex := s.appendDecommitmentIndex - 1
              index := s.index + 1 }
          | _, _ => Except.error MPErr.typeError
        else if (s.index : Int) < s.upperBound then
          let op1 : Option α :=
            if useLeafs then appendLeafs.get? s.readIndex
            else s.newHashes.getD s.readIndex none
          let op2 : Option α :=
            if useLeafs then appendLeafs.get? (s.readIndex + 1)
            else s.newHashes.getD (s.readIndex + 1) none
          match op1, op2 with
          | some a, some b =>
            Except.ok { s with
              newHashes := s.newHashes.set s.writeIndex (some (hashFunction a b))
              writeIndex := s.writeIndex + 1
              readIndex := s.readIndex + 2
              index := s.index + 2 }
          | _, _ => Except.error MPErr.typeError
        else Except.ok s
      match step1 with
      | Except.error e => Except.error e
      | Except.ok s =>
        let s :=
          if (s.index : Int) ≥ s.upperBound then
            let nh :=
              if (s.index : Int) = s.upperBound then
                s.newHashes.set s.writeIndex
                  (if useLeafs then appendLeafs.get? s.readIndex
                   else s.newHashes.getD s.readIndex none)
              else s.newHashes
            { s with newHashes := nh
                     readIndex := 0
                     writeIndex := 0
                     upperBound := s.upperBound / 2
                     offset := s.offset / 2
                     index := s.offset / 2 }
          else s
        apLoop hashFunction elementCount appendLeafs fuel s
    else Except.ok s.newHashes

structure GNRootResult (α : Type) where
  root : α
  newRoot : Option α
deriving DecidableEq, Repr

/-- The pass-2 starting state (source lines resetting the locals between
the passes). -/
def apInitial {α : Type} (elementCount appendLeafCount : Nat)
    (newHashes appendDecommitments : List (Option α)) : ApState α :=
  { writeIndex := 0
    readIndex := 0
    upperBound := (elementCount : Int) + appendLeafCount - 1
    offset := elementCount
    index := elementCount
    appendDecommitmentIndex := (bitCount32 elementCount : Int) - 1
    newHashes := newHashes
    appendDecommitments := appendDecommitments }

/-- `getNewRootBooleans` from the combined-proof file. -/
def getNewRootBooleans {α : Type} [DecidableEq α] (hashFunction : α → α → α)
    (leafs updateLeafs appendLeafs : List α) (elementCount : Nat)
    (flags skips : List Bool) (decommitments : List α) :
    Except MPErr (GNRootResult α) := do
  let st ← (List.range flags.length).foldlM
    (fun st i =>
      gnrStep hashFunction leafs updateLeafs decommitments
        (flags.getD i false) (skips.getD i false) st)
    (gnrInitial α leafs.length appendLeafs.length elementCount)
  let fin ← gnrFinalize leafs updateLeafs st
  let nh ← apLoop hashFunction elementCount appendLeafs
    (2 * (elementCount + appendLeafs.length) + 66)
    (apInitial elementCount appendLeafs.length st.newHashes fin.2.2)
  match fin.1 with
  | some r => Except.ok ⟨r, nh.getD 0 none⟩
  | none => Except.error MPErr.typeError

/-- The `while (true)` pass-1 loop of `getNewRootBits`: the flag-and-skip
sentinel runs the epilogue and breaks with the final state and the
epilogue's results. -/
def getNewRootBitsLoop {α : Type} [DecidableEq α] (hashFunction : α → α → α)
    (leafs updateLeafs : List α) (decommitments : List α) (flags skips : Nat) :
    Nat → Nat → GNState α →
    Except MPErr (GNState α × (Option α × Option α × List (Option α)))
  | 0, _, _ => Except.error MPErr.outOfFuel
  | fuel + 1, bitCheck, st =>
    let flag := Nat.land flags bitCheck = bitCheck
    if Nat.land skips bitCheck = bitCheck then
      if flag then
        (gnrFinalize leafs updateLeafs st).map (fun fin => (st, fin))
      else
        match gnrStep hashFunction leafs updateLeafs decommitments flag true st with
        | Except.error e => Except.error e
        | Except.ok st =>
          getNewRootBitsLoop hashFunction leafs updateLeafs decommitments flags
            skips fuel (bitCheck * 2 % 2 ^ 256) st
    else
      match gnrStep hashFunction leafs updateLeafs decommitments flag false st with
      | Except.error e => Except.error e
      | Except.ok st =>
        getNewRootBitsLoop hashFunction leafs updateLeafs decommitments flags
          skips fuel (bitCheck * 2 % 2 ^ 256) st

/-- `getNewRootBits` from the combined-proof file. -/
def getNewRootBits {α : Type} [DecidableEq α] (hashFunction : α → α → α)
    (leafs updateLeafs appendLeafs : List α) (elementCount : Nat)
    (flags skips : Nat) (decommitments : List α) :
    Except MPErr (GNRootResult α) := do
  let (st, fin) ← getNewRootBitsLoop hashFunction leafs updateLeafs
    decommitments flags skips 257 1
    (gnrInitial α leafs.length appendLeafs.length elementCount)
  let nh ← apLoop hashFunction elementCount appendLeafs
    (2 * (elementCount + appendLeafs.length) + 66)
    (apInitial elementCount appendLeafs.length st.newHashes fin.2.2)
  match fin.1 with
  | some r => Except.ok ⟨r, nh.getD 0 none⟩
  | none => Except.error MPErr.typeError

/-! ### Claim C5: the no-op update -/

set_option maxHeartbeats 1000000 in
/-- With `updateLeafs = leafs`, one pass-1 iteration from a mirrored state
(new queue equal to the old queue) is exactly a `getRootBooleans`
iteration, with the result mirrored again. -/
lemma gnrStep_mirror {α : Type} (hashFunction : α → α → α) (leafs ds : List α)
    (flag skip : Bool) (st : MPState α) :
    gnrStep hashFunction leafs leafs ds flag skip (toGN st)
      = (grStep hashFunction leafs ds flag skip st).map toGN := by
  rw [grStep, gnrStep]
  dsimp only [toGN]
  split
  · repeat' split
    all_goals rfl
  · cases flag
    · simp only [Bool.false_eq_true, if_false]
      by_cases hb : st.readIndexOfAppendNode = st.readIndex
      · simp only [if_pos hb]
        by_cases ho : st.appendNodeIndex % 2 = 1
        · simp only [if_pos ho]
          cases hA : ds.get? st.decommitmentIndex with
          | none =>
            cases hH : st.accHash
            all_goals rfl
          | some a =>
            cases hH : st.accHash
            · rfl
            · try dsimp only
              repeat' split
              all_goals first | rfl | (simp_all; rfl)
        · simp only [if_neg ho]
          try dsimp only
          repeat' split
          all_goals first | rfl | (simp_all; rfl)
      · simp only [if_neg hb]
        try dsimp only
        repeat' split
        all_goals first | rfl | (simp_all; rfl)
    · simp only [eq_self_iff_true, if_true]
      by_cases hb : st.readIndexOfAppendNode = st.readIndex
      · simp only [if_pos hb]
        by_cases ho : st.appendNodeIndex % 2 = 1
        · simp only [if_pos ho]
          cases hA : (if st.useLeafs = true then
              leafs.get? ((st.readIndex + 1) % leafs.length)
            else st.hashes.getD ((st.readIndex + 1) % leafs.length) none) with
          | none =>
            cases hH : st.accHash
            all_goals rfl
          | some a =>
            cases hH : st.accHash
            · rfl
            · try dsimp only
              repeat' split
              all_goals first | rfl | (simp_all; rfl)
        · simp only [if_neg ho]
          try dsimp only
          repeat' split
          all_goals first | rfl | (simp_all; rfl)
      · simp only [if_neg hb]
        try dsimp only
        repeat' split
        all_goals first | rfl | (simp_all; rfl)

/-- Lockstep of the whole boolean-array pass-1 loop. -/
lemma gnrLoop_mirror {α : Type} (hashFunction : α → α → α) (leafs ds : List α)
    (flags skips : List Bool) :
    ∀ (l : List Nat) (st : MPState α),
      l.foldlM
        (fun st i =>
          gnrStep hashFunction leafs leafs ds (flags.getD i false)
            (skips.getD i false) st)
        (toGN st)
      = (l.foldlM
          (fun st i =>
            grStep hashFunction leafs ds (flags.getD i false)
              (skips.getD i false) st)
          st).map toGN := by
  intro l
  induction l with
  | nil => intro st; rfl
  | cons a rest ih =>
    intro st
    rw [List.foldlM_cons, List.foldlM_cons, gnrStep_mirror]
    cases hstep : grStep hashFunction leafs ds (flags.getD a false)
        (skips.getD a false) st with
    | error e => rfl
    | ok st1 => exact ih st1

/-- On a mirrored state the pass-1 epilogue returns an old root and a new
root that are equal. -/
lemma gnrFinalize_mirror {α : Type} [DecidableEq α] (leafs : List α)
    (st : MPState α) (out : Option α × Option α × List (Option α))
    (h : gnrFinalize leafs leafs (toGN st) = Except.ok out) :
    out.1 = out.2.1 := by
  rw [gnrFinalize] at h
  dsimp only [toGN, gnrNewRootVal, grRootVal] at h
  split at h
  · simp only [Except.ok.injEq] at h
    rw [← h]
  · split at h
    · split at h
      · simp only [Except.ok.injEq] at h
        rw [← h]
      · exact absurd h (by simp)
    · exact absurd h (by simp)

/-- The old root the pass-1 epilogue returns is `grRootVal` of the final
base state. -/
lemma gnrFinalize_fst {α : Type} [DecidableEq α] (leafs updateLeafs : List α)
    (st : GNState α) (out : Option α × Option α × List (Option α))
    (h : gnrFinalize leafs updateLeafs st = Except.ok out) :
    out.1 = grRootVal leafs st.base := by
  rw [gnrFinalize] at h
  split at h
  · simp only [Except.ok.injEq] at h
    rw [← h]
  · split at h
    · split at h
      · simp only [Except.ok.injEq] at h
        rw [← h]
      · exact absurd h (by simp)
    · exact absurd h (by simp)

/-- With no leaves to append, the doubled queue of pass 1 starts exactly
as the mirrored `getRootBooleans` queue (this needs at least one leaf:
`newHashes` is allocated with length `max(leafCount, 1)`). -/
lemma gnrInitial_mirror {α : Type} (leafCount elementCount : Nat)
    (hpos : 0 < leafCount) :
    gnrInitial α leafCount 0 elementCount
      = toGN (grInitial α leafCount elementCount) := by
  rw [gnrInitial, toGN, grInitial]
  simp only [Nat.zero_div, Nat.zero_add, Nat.max_eq_left hpos]

/-- A packed-bit pass-1 run from a mirrored state that reaches the
sentinel reports equal old and new roots. -/
lemma getNewRootBitsLoop_mirror {α : Type} [DecidableEq α]
    (hashFunction : α → α → α) (leafs ds : List α) (fN sN : Nat) :
    ∀ (fuel bitCheck : Nat) (st : MPState α)
      (out : GNState α × (Option α × Option α × List (Option α))),
      getNewRootBitsLoop hashFunction leafs leafs ds fN sN fuel bitCheck
        (toGN st) = Except.ok out →
      out.2.1 = out.2.2.1 := by
  intro fuel
  induction fuel with
  | zero =>
    intro bitCheck st out h
    exact absurd h (by simp [getNewRootBitsLoop])
  | succ fuel ih =>
    intro bitCheck st out h
    rw [getNewRootBitsLoop] at h
    split at h
    · split at h
      · cases hfin : gnrFinalize leafs leafs (toGN st) with
        | error e => rw [hfin] at h; exact absurd h (by simp [Except.map])
        | ok fin =>
          rw [hfin] at h
          simp only [Except.map, Except.ok.injEq] at h
          rw [← h]
          exact gnrFinalize_mirror leafs st fin hfin
      · rw [gnrStep_mirror] at h
        cases hstep : grStep hashFunction leafs ds _ true st with
        | error e => rw [hstep] at h; exact absurd h (by simp [Except.map])
        | ok st1 =>
          rw [hstep] at h
          exact ih _ st1 out h
    · rw [gnrStep_mirror] at h
      cases hstep : grStep hashFunction leafs ds _ false st with
      | error e => rw [hstep] at h; exact absurd h (by simp [Except.map])
      | ok st1 =>
        rw [hstep] at h
        exact ih _ st1 out h

lemma except_bind_ok {ε β γ : Type} (x : Except ε β) (f : β → Except ε γ)
    (c : γ) (h : (x >>= f) = Except.ok c) :
    ∃ b, x = Except.ok b ∧ f b = Except.ok c := by
  cases x with
  | error e =>
    rw [except_error_bind] at h
    exact absurd h (by simp)
  | ok b => exact ⟨b, rfl, h⟩

/-- `getNewRootBooleans` is pass 1, the epilogue, pass 2 and the return
expression (the do-block unfolded). -/
lemma getNewRootBooleans_run {α : Type} [DecidableEq α]
    (hashFunction : α → α → α) (leafs updateLeafs appendLeafs : List α)
    (elementCount : Nat) (flags skips : List Bool) (ds : List α) :
    getNewRootBooleans hashFunction leafs updateLeafs appendLeafs elementCount
        flags skips ds
      = (List.range flags.length).foldlM
          (fun st i =>
            gnrStep hashFunction leafs updateLeafs ds (flags.getD i false)
              (skips.getD i false) st)
          (gnrInitial α leafs.length appendLeafs.length elementCount)
        >>= fun st => gnrFinalize leafs updateLeafs st
        >>= fun fin => apLoop hashFunction elementCount appendLeafs
            (2 * (elementCount + appendLeafs.length) + 66)
            (apInitial elementCount appendLeafs.length st.newHashes fin.2.2)
        >>= fun nh =>
          match fin.1 with
          | some r => Except.ok ⟨r, nh.getD 0 none⟩
          | none => Except.error MPErr.typeError := rfl

/-- C5 (amended): a no-op update (`updateLeafs` identical to `leafs`, no
leaves appended) keeps pass 1 in lockstep with `getRootBooleans`: the new
queue always equals the old queue, so the *internally computed* new root
equals the old root, and any result the function returns carries the old
root in its `root` field (likewise at the packed-bit sentinel the
epilogue's old and new roots agree).  The *returned* `newRoot` field,
however, is `newHashes[0]` after the append pass, which is not that root
in general (see the counterexample). -/
theorem getNewRoot_noop_update {α : Type} [DecidableEq α]
    (hashFunction : α → α → α) (leafs : List α) (elementCount : Nat)
    (flags skips : List Bool) (fN sN : Nat) (ds : List α)
    (hne : leafs ≠ []) :
    (∀ st, (List.range flags.length).foldlM
        (fun st i =>
          grStep hashFunction leafs ds (flags.getD i false) (skips.getD i false) st)
        (grInitial α leafs.length elementCount) = Except.ok st →
      (List.range flags.length).foldlM
        (fun st i =>
          gnrStep hashFunction leafs leafs ds (flags.getD i false)
            (skips.getD i false) st)
        (gnrInitial α leafs.length 0 elementCount) = Except.ok (toGN st)
      ∧ gnrNewRootVal leafs.length leafs (toGN st) = grRootVal leafs st)
    ∧ (∀ res, getNewRootBooleans hashFunction leafs leafs [] elementCount
        flags skips ds = Except.ok res →
      ∃ st, (List.range flags.length).foldlM
          (fun st i =>
            grStep hashFunction leafs ds (flags.getD i false) (skips.getD i false) st)
          (grInitial α leafs.length elementCount) = Except.ok st
        ∧ grRootVal leafs st = some res.root)
    ∧ (∀ (fuel bitCheck : Nat) (st : MPState α)
        (out : GNState α × (Option α × Option α × List (Option α))),
      getNewRootBitsLoop hashFunction leafs leafs ds fN sN fuel bitCheck
        (toGN st) = Except.ok out →
      out.2.1 = out.2.2.1) := by
  have hpos : 0 < leafs.length := List.length_pos.mpr hne
  refine ⟨fun st hrun => ?_, fun res hres => ?_, fun fuel bc st out h =>
    getNewRootBitsLoop_mirror hashFunction leafs ds fN sN fuel bc st out h⟩
  · constructor
    · rw [gnrInitial_mirror leafs.length elementCount hpos, gnrLoop_mirror, hrun]
      rfl
    · rfl
  · rw [getNewRootBooleans_run] at hres
    simp only [List.length_nil] at hres
    obtain ⟨gst, hloop, hres2⟩ := except_bind_ok _ _ _ hres
    rw [gnrInitial_mirror leafs.length elementCount hpos, gnrLoop_mirror] at hloop
    cases hrun : (List.range flags.length).foldlM
        (fun st i =>
          grStep hashFunction leafs ds (flags.getD i false) (skips.getD i false) st)
        (grInitial α leafs.length elementCount) with
    | error e =>
      rw [hrun] at hloop
      exact absurd hloop (by simp [Except.map])
    | ok st =>
      rw [hrun] at hloop
      have hgst : toGN st = gst := by
        simp only [Except.map, Except.ok.injEq] at hloop
        exact hloop
      subst hgst
      obtain ⟨fin, hfin, hres3⟩ := except_bind_ok _ _ _ hres2
      obtain ⟨nh, hap, hres4⟩ := except_bind_ok _ _ _ hres3
      have hfst := gnrFinalize_fst leafs leafs (toGN st) fin hfin
      cases hf1 : fin.1 with
      | none =>
        rw [hf1] at hres4
        exact absurd hres4 (by simp)
      | some r =>
        rw [hf1] at hres4
        simp only [Except.ok.injEq] at hres4
        subst hres4
        refine ⟨st, rfl, ?_⟩
        have hbase : (toGN st).base = st := rfl
        rw [hbase] at hfst
        rw [← hfst, hf1]

/-- Counterexample to C5 as stated: an input `getRootBooleans` accepts
(one leaf, `elementCount = 1`, empty proof, old root 5) on which the
no-op `getNewRootBooleans` call returns `newRoot = null` — the stale
`newHashes[0]` slot — instead of a `newRoot` equal to the returned root
5. -/
theorem getNewRoot_noop_counterexample :
    (getRootBooleans (fun a b => 2 * a + 3 * b + 1) [5] 1 [] [] []).toOption.map
        (fun res => res.root) = some 5
    ∧ (getNewRootBooleans (fun a b => 2 * a + 3 * b + 1) [5] [5] [] 1 [] []
        []).toOption.map (fun res => (res.root, res.newRoot)) = some (5, none)
    ∧ (none : Option Nat) ≠ some 5 := by decide

/-- The pass-1 final state of the run witnessing C5: leafs `[5, 7]`, a
single flag iteration hashing the pair into slot 0. -/
def stC5 : MPState Nat :=
  { readIndex := 0
    writeIndex := 1
    decommitmentIndex := 0
    useLeafs := false
    appendNodeIndex := 1
    readIndexOfAppendNode := 0
    appendDecommitmentIndex := 1
    hashes := [some 30, none]
    appendDecommitments := [none]
    accHash := none
    recordCount := 0 }

/-- Witness for C5 at a concrete two-leaf no-op update. -/
theorem getNewRoot_noop_update_witness :
    (List.range 1).foldlM
        (fun st i =>
          gnrStep (fun a b => 2 * a + 3 * b + 1) [5, 7] [5, 7] []
            ([true].getD i false) ([].getD i false) st)
        (gnrInitial Nat 2 0 2) = Except.ok (toGN stC5)
    ∧ gnrNewRootVal 2 [5, 7] (toGN stC5) = grRootVal [5, 7] stC5 :=
  (getNewRoot_noop_update (fun a b => 2 * a + 3 * b + 1) [5, 7] 2 [true] [] 0 0
      [] (by decide)).1 stC5 (by decide)

/-! ### Claim C7: length validation -/

/-- A JavaScript read of `skips[i]` past the end is `undefined`, which is
falsy: padding `skips` with `false` entries. -/
lemma getD_append_replicate_false (skips : List Bool) (m i : Nat) :
    (skips ++ List.replicate m false).getD i false = skips.getD i false := by
  by_cases h : i < skips.length
  · rw [List.getD_append _ _ _ _ h]
  · rw [List.getD_eq_default skips _ (by omega)]
    rcases Nat.lt_or_ge i (skips.length + m) with h2 | h2
    · rw [List.getD_append_right _ _ _ _ (by omega)]
      rcases Nat.lt_or_ge (i - skips.length) m with h3 | h3
      · rw [List.getD_eq_getElem _ _ (by simpa using h3)]
        simp
      · rw [List.getD_eq_default _ _ (by simpa using h3)]
    · rw [List.getD_eq_default _ _ ?_]
      simp only [List.length_append, List.length_replicate]
      omega

/-- C7 (amended): neither decoder validates array lengths, and no
`LengthMismatchError` exists in this code.  `flags` alone drives the
iteration count; a `skips` entry read past its end is `undefined`, i.e.
falsy, so extending `skips` with `false` entries never changes either
function's outcome — length-mismatched inputs are processed normally (and
can succeed: see the counterexample, including a successful run whose
`updateLeafs` is shorter than `leafs`). -/
theorem getRoot_no_length_check {α : Type} [DecidableEq α]
    (hashFunction : α → α → α) (leafs updateLeafs appendLeafs : List α)
    (elementCount : Nat) (flags skips : List Bool) (m : Nat) (ds : List α) :
    getRootBooleans hashFunction leafs elementCount flags
        (skips ++ List.replicate m false) ds
      = getRootBooleans hashFunction leafs elementCount flags skips ds
    ∧ getNewRootBooleans hashFunction leafs updateLeafs appendLeafs
        elementCount flags (skips ++ List.replicate m false) ds
      = getNewRootBooleans hashFunction leafs updateLeafs appendLeafs
        elementCount flags skips ds := by
  constructor
  · rw [getRootBooleans_run, getRootBooleans_run]
    have hfun : (fun (st : MPState α) (i : Nat) =>
        grStep hashFunction leafs ds (flags.getD i false)
          ((skips ++ List.replicate m false).getD i false) st)
      = (fun st i =>
          grStep hashFunction leafs ds (flags.getD i false)
            (skips.getD i false) st) := by
      funext st i
      rw [getD_append_replicate_false]
    rw [hfun]
  · rw [getNewRootBooleans_run, getNewRootBooleans_run]
    have hfun : (fun (st : GNState α) (i : Nat) =>
        gnrStep hashFunction leafs updateLeafs ds (flags.getD i false)
          ((skips ++ List.replicate m false).getD i false) st)
      = (fun st i =>
          gnrStep hashFunction leafs updateLeafs ds (flags.getD i false)
            (skips.getD i false) st) := by
      funext st i
      rw [getD_append_replicate_false]
    rw [hfun]

/-- Counterexample to C7 as stated: `flags` of length 1 with empty `skips`
is accepted by `getRootBooleans` (no error of any kind), and
`getNewRootBooleans` accepts an `updateLeafs` shorter than `leafs`; the
promised immediate `LengthMismatchError` never occurs. -/
theorem getRoot_no_length_check_counterexample :
    (getRootBooleans (fun a b => 2 * a + 3 * b + 1) [5, 7] 2 [true] []
        []).toOption.map (fun res => res.root) = some 30
    ∧ [true].length ≠ ([] : List Bool).length
    ∧ (getNewRootBooleans (fun a b => 2 * a + 3 * b + 1) [5] [] [] 1 [] []
        []).toOption.map (fun res => res.root) = some 5
    ∧ [(5 : Nat)].length ≠ ([] : List Nat).length := by decide

end MerkleTrees
